import Mathlib

/-!
Verification development for the MCTS reinforcement-learning engine
(`monte_carlo_ts.py`) and its Nim game oracle (`game_nim.py`).

Modelling conventions:
* The Python `MonteCarloTreeSearch` object's statistics (`self.tree`,
  `self.heuristic`, `self.visit_counts_s`, `self.visit_counts_sa`) are the
  `MCState` structure.  The Python dicts are modelled as total functions with
  default value `0`; every lookup performed by the reference control flow is
  of a key initialised by `new_node`, where the two semantics agree.
* The game-state oracle (`self.board`) is an abstract `Board` structure of
  pure functions, as the search core only calls it through its interface.
* Heuristic values (Python floats) are modelled as rationals, so that the
  incremental-mean arithmetic of `backup` is exact.
* The numpy functions `np.sqrt` and `np.log` used by `select_action` are
  parameters (`NumOps`); `realOps` is the intended real-valued instance.
  Theorems about `select_action` instantiate them with `Real.sqrt`/`Real.log`;
  flow invariants hold for every instance, hence for the intended one.
* Python `while` loops (`simulate_tree`, the rollout of `simulate_default`)
  are modelled with an explicit fuel parameter; `none` means the loop did not
  terminate within the fuel, so `some` results are exactly the completed runs.
* The stochastic default policy is modelled as a function of the call index
  and the state, covering every realisation of its randomness.
-/

/-- The game-state oracle interface consumed by `MonteCarloTreeSearch`
(the `board` constructor argument, "of type simworld"). -/
structure Board (S A : Type) where
  state_is_final : S → Bool
  get_legal_actions : S → List A
  get_child_state : S → A → S
  p0_to_play : S → Bool
  winner_is_p0 : S → Bool

/-- The mutable statistics of a `MonteCarloTreeSearch` object: the set of
expanded states, the action-value dict `heuristic`, and the two visit-count
dicts.  Dicts are total functions defaulting to `0`. -/
structure MCState (S A : Type) where
  tree : List S
  heuristic : S × A → ℚ
  visit_counts_s : S → ℕ
  visit_counts_sa : S × A → ℕ

variable {S A : Type} [DecidableEq S] [DecidableEq A]
variable {R : Type} [LinearOrderedField R]

set_option linter.unusedSectionVars false
set_option linter.unnecessarySeqFocus false

/-- `initialize_variables`: resets the variables to their initial state
(empty tree, empty dicts). -/
def initialize_variables : MCState S A :=
  { tree := [], heuristic := fun _ => 0, visit_counts_s := fun _ => 0,
    visit_counts_sa := fun _ => 0 }

/-- Loop of `np.argmax`: current best value, its index, and the index of the
next element; a later element replaces the best only when strictly greater,
so the first maximum is kept. -/
def argmaxIdxAux {O : Type} [LinearOrder O] (best : O) (bestIdx cur : ℕ) : List O → ℕ
  | [] => bestIdx
  | x :: xs =>
    if best < x then argmaxIdxAux x cur (cur + 1) xs
    else argmaxIdxAux best bestIdx (cur + 1) xs

/-- `np.argmax`: index of the first maximal element (`0` on the empty list,
where numpy instead raises). -/
def argmaxIdx {O : Type} [LinearOrder O] : List O → ℕ
  | [] => 0
  | x :: xs => argmaxIdxAux x 0 1 xs

/-- Loop of `np.argmin`: a later element replaces the best only when strictly
smaller, so the first minimum is kept. -/
def argminIdxAux {O : Type} [LinearOrder O] (best : O) (bestIdx cur : ℕ) : List O → ℕ
  | [] => bestIdx
  | x :: xs =>
    if x < best then argminIdxAux x cur (cur + 1) xs
    else argminIdxAux best bestIdx (cur + 1) xs

/-- `np.argmin`: index of the first minimal element. -/
def argminIdx {O : Type} [LinearOrder O] : List O → ℕ
  | [] => 0
  | x :: xs => argminIdxAux x 0 1 xs

/-- The numeric operations `np.sqrt` and `np.log` used by `select_action`. -/
structure NumOps (R : Type) where
  sqrt : R → R
  log : R → R

/-- The intended instance of `NumOps`: real square root and natural log. -/
noncomputable def realOps : NumOps ℝ := ⟨Real.sqrt, Real.log⟩

/-- `MonteCarloTreeSearch.select_action`: UCB-style action choice.  Returns
`none` when there is no legal action (where Python's `np.argmax` on an empty
array, and the indexing after it, raise). -/
def select_action (ops : NumOps R) (board : Board S A) (st : MCState S A)
    (state : S) (exploration : R) : Option A :=
  let legal_actions := board.get_legal_actions state
  if board.p0_to_play state then
    let action_values := legal_actions.map (fun action =>
      (st.heuristic (state, action) : R) + exploration *
        ops.sqrt (ops.log (st.visit_counts_s state : R) /
          ((st.visit_counts_sa (state, action) : R) + 1)))
    legal_actions[argmaxIdx action_values]?
  else
    let action_values := legal_actions.map (fun action =>
      (st.heuristic (state, action) : R) - exploration *
        ops.sqrt (ops.log (st.visit_counts_s state : R) /
          ((st.visit_counts_sa (state, action) : R) + 1)))
    legal_actions[argminIdx action_values]?

/-- Loop body of `MonteCarloTreeSearch.new_node`: zero the per-action
statistics of one legal action. -/
def nn_step (state_t : S) (acc : MCState S A) (action : A) : MCState S A :=
  { acc with
    visit_counts_sa := Function.update acc.visit_counts_sa (state_t, action) 0
    heuristic := Function.update acc.heuristic (state_t, action) 0 }

/-- `MonteCarloTreeSearch.new_node`: add the state to the tree and set all of
its statistics to 0. -/
def new_node (board : Board S A) (st : MCState S A) (state_t : S) : MCState S A :=
  (board.get_legal_actions state_t).foldl (nn_step state_t)
    { st with
      tree := state_t :: st.tree
      visit_counts_s := Function.update st.visit_counts_s state_t 0 }

/-- Loop body of `MonteCarloTreeSearch.backup`: one `(state, action)` pair.
Both visit counts are incremented by 1, then the action value is moved toward
the outcome by `1 / visit_counts_sa` of the gap (incremental mean). -/
def backup_step (outcome : ℚ) (acc : MCState S A) (stat_act : S × A) : MCState S A :=
  let new_vc_sa := acc.visit_counts_sa stat_act + 1
  { acc with
    visit_counts_s := Function.update acc.visit_counts_s stat_act.1
      (acc.visit_counts_s stat_act.1 + 1)
    visit_counts_sa := Function.update acc.visit_counts_sa stat_act new_vc_sa
    heuristic := Function.update acc.heuristic stat_act
      (acc.heuristic stat_act +
        (outcome - acc.heuristic stat_act) / (new_vc_sa : ℚ)) }

/-- `MonteCarloTreeSearch.backup`: fold the backup step over
`zip(visited_states, performed_actions)` in path order. -/
def backup (st : MCState S A) (visited_states : List S)
    (performed_actions : List A) (outcome : ℚ) : MCState S A :=
  (visited_states.zip performed_actions).foldl (backup_step outcome) st

/-- `MonteCarloTreeSearch.simulate_tree`: walk down the tree from the current
state.  Returns the visited tree states, the actions performed by
`select_action`, the stopping state (`self.state` on exit) and the updated
statistics (a possible `new_node`).  The fuel bounds the `while` loop;
`none` models a run that does not complete (or a `select_action` failure). -/
def simulate_tree (ops : NumOps R) (board : Board S A) (exploration : R) :
    ℕ → MCState S A → S → Option (List S × List A × S × MCState S A)
  | 0, _, _ => none
  | fuel + 1, st, s =>
    if board.state_is_final s then some ([], [], s, st)
    else if s ∈ st.tree then
      match select_action ops board st s exploration with
      | none => none
      | some action =>
        match simulate_tree ops board exploration fuel st
            (board.get_child_state s action) with
        | none => none
        | some (vs, pa, sf, stf) => some (s :: vs, action :: pa, sf, stf)
    else some ([s], [], s, new_node board st s)

/-- The `while` loop of `MonteCarloTreeSearch.simulate_default`: play default
policy moves until a final state is reached.  `k` is the index of the next
policy call. -/
def rollout_loop (board : Board S A) (policy : ℕ → S → A) :
    ℕ → ℕ → S → Option S
  | 0, _, s => if board.state_is_final s then some s else none
  | fuel + 1, k, s =>
    if board.state_is_final s then some s
    else rollout_loop board policy fuel (k + 1)
      (board.get_child_state s (policy k s))

/-- `MonteCarloTreeSearch.simulate_default`: roll out with the default policy
from the state reached by `simulate_tree`; returns the outcome
(`winner_is_p0` of the final state) and the first (bridging) action, which is
`none` when the start state is already final. -/
def simulate_default (board : Board S A) (policy : ℕ → S → A) (fuel : ℕ)
    (s : S) : Option (Bool × Option A) :=
  if board.state_is_final s then some (board.winner_is_p0 s, none)
  else
    let first_action := policy 0 s
    (rollout_loop board policy fuel 1 (board.get_child_state s first_action)).map
      (fun sf => (board.winner_is_p0 sf, some first_action))

/-- `MonteCarloTreeSearch.simulate`: one full simulation from the root —
tree descent, rollout, and backup of the outcome (the boolean outcome is `1`
or `0` in the backup arithmetic, as for a Python bool). -/
def simulate (ops : NumOps R) (board : Board S A) (exploration : R)
    (policy : ℕ → S → A) (fuelT fuelR : ℕ) (st : MCState S A) (root : S) :
    Option (MCState S A) :=
  match simulate_tree ops board exploration fuelT st root with
  | none => none
  | some (visited_states, performed_actions, sf, st1) =>
    match simulate_default board policy fuelR sf with
    | none => none
    | some (outcome, first_action) =>
      let pa2 := match first_action with
        | some a => performed_actions ++ [a]
        | none => performed_actions
      some (backup st1 visited_states pa2 (if outcome then 1 else 0))

/-- The simulation loop of `MonteCarloTreeSearch.mc_tree_search`: run the
configured number of simulations from the root, each with its own
realisation of the default policy's randomness. -/
def run_sims (ops : NumOps R) (board : Board S A) (exploration : R)
    (pols : ℕ → ℕ → S → A) (fuelT fuelR : ℕ) (root : S) :
    ℕ → MCState S A → Option (MCState S A)
  | 0, st => some st
  | m + 1, st =>
    match simulate ops board exploration (pols m) fuelT fuelR st root with
    | none => none
    | some st1 => run_sims ops board exploration pols fuelT fuelR root m st1

/-- One simulation of an episode as an adversary may schedule it: a policy
realisation, a root state (successive decision calls may use different
roots), and the fuels under which the loops complete. -/
structure SimStep (S A : Type) where
  pol : ℕ → S → A
  root : S
  fuelT : ℕ
  fuelR : ℕ

/-- Any number of completed simulations within one episode, across successive
decision calls: fold `simulate` over a schedule of simulation steps. -/
def run_steps (ops : NumOps R) (board : Board S A) (exploration : R) :
    List (SimStep S A) → MCState S A → Option (MCState S A)
  | [], st => some st
  | step :: rest, st =>
    match simulate ops board exploration step.pol step.fuelT step.fuelR st
        step.root with
    | none => none
    | some st1 => run_steps ops board exploration rest st1

/-- Elementwise sum of two numpy-style vectors (`action_visited += ...`). -/
def vecAdd (u v : List ℚ) : List ℚ := List.zipWith (· + ·) u v

/-- Scalar times vector (`visited_vector[i] * np.array(action)`). -/
def vecSmul (c : ℚ) (v : List ℚ) : List ℚ := v.map (fun x => c * x)

/-- Error raised out of `get_visited_distribution` (Python `IndexError` from
`legal_actions[0]` when there is no legal action). -/
inductive DistErr
  | indexError
deriving DecidableEq

/-- `MonteCarloTreeSearch.get_visited_distribution`: normalise the root's
per-action visit counts and map them onto the canonical action space by
summing `weight * action` over the one-hot encoded legal actions.  The
division by `visited_vector.sum()` is unguarded exactly as in the source
(in ℚ a zero denominator yields `0` where numpy yields `NaN`; neither
raises). -/
def get_visited_distribution (board : Board S (List ℚ)) (st : MCState S (List ℚ))
    (state : S) : Except DistErr (List ℚ) :=
  let legal_actions := board.get_legal_actions state
  let visited_vector : List ℚ :=
    legal_actions.map (fun action => (st.visit_counts_sa (state, action) : ℚ))
  let total := visited_vector.sum
  let normalized := visited_vector.map (fun x => x / total)
  match legal_actions with
  | [] => Except.error DistErr.indexError
  | a0 :: _ =>
    Except.ok ((legal_actions.zip normalized).foldl
      (fun acc p => vecAdd acc (vecSmul p.2 p.1))
      (List.replicate a0.length (0 : ℚ)))

/-- `MonteCarloTreeSearch.mc_tree_search`: run the simulation budget, then
return the exploitation action at the root (`select_action` with exploration
coefficient 0), the visit-count distribution, and the updated statistics. -/
def mc_tree_search (ops : NumOps R) (board : Board S (List ℚ)) (exploration : R)
    (pols : ℕ → ℕ → S → List ℚ) (fuelT fuelR M : ℕ) (st : MCState S (List ℚ))
    (root : S) :
    Option (Option (List ℚ) × Except DistErr (List ℚ) × MCState S (List ℚ)) :=
  match run_sims ops board exploration pols fuelT fuelR root M st with
  | none => none
  | some st1 =>
    some (select_action ops board st1 root 0,
      get_visited_distribution board st1 root, st1)

/-- Sum of the per-action visit counts of a state over its legal actions,
as a rational (the normalisation denominator `visited_vector.sum()`). -/
def totalOf (board : Board S (List ℚ)) (st : MCState S (List ℚ)) (state : S) : ℚ :=
  ((board.get_legal_actions state).map
    (fun action => (st.visit_counts_sa (state, action) : ℚ))).sum

/-- One-hot encoding of canonical action slot `k` in a move space of size
`L`. -/
def one_hot_vec (L k : ℕ) : List ℚ := (List.replicate L (0 : ℚ)).set k 1

/-- Error values raised by `GameNim` (Python `ValueError`s): the two
`raise` sites of `get_child_state` and the `ValueError` of `list.index`
inside `get_num_discs_from_one_hot`. -/
inductive NimErr
  | invalidActionRange
  | invalidActionTooMany
  | valueErrorIndex
deriving DecidableEq

/-- The `GameNim` simworld: `N` pieces on the board, at most `K` taken per
move. -/
structure GameNim where
  num_pieces : ℕ
  max_take : ℕ

/-- Python `list.index(1)`: index of the first element equal to 1, or a
`ValueError` (here `none`) when there is none. -/
def index_of_one : List ℤ → Option ℕ
  | [] => none
  | x :: xs => if x = 1 then some 0 else (index_of_one xs).map (· + 1)

/-- `GameNim.get_num_discs_from_one_hot`: drop the trailing pid
(`state_oh[:-1]`) and return the index of the 1 in the remaining vector. -/
def get_num_discs_from_one_hot (state_oh : List ℤ) : Except NimErr ℕ :=
  match index_of_one state_oh.dropLast with
  | some i => Except.ok i
  | none => Except.error NimErr.valueErrorIndex

/-- `GameNim.get_legal_actions`: `range(1, min(num_discs, max_take) + 1)`.
Propagates the `ValueError` of `get_num_discs_from_one_hot` on states with
no 1 in their piece section. -/
def GameNim.get_legal_actions (g : GameNim) (state : List ℤ) :
    Except NimErr (List ℤ) :=
  (get_num_discs_from_one_hot state).map (fun num_discs =>
    (List.range (min num_discs g.max_take)).map (fun (i : ℕ) => (i : ℤ) + 1))

/-- `GameNim.get_child_state`: validate the action, then return the plain
numeric pair `(num_discs - action, 1 - state[-1])` (a different
representation from the one-hot input). -/
def GameNim.get_child_state (g : GameNim) (state : List ℤ) (action : ℤ) :
    Except NimErr (List ℤ) :=
  match get_num_discs_from_one_hot state with
  | Except.error e => Except.error e
  | Except.ok num_discs =>
    if action < 1 ∨ (g.max_take : ℤ) < action then
      Except.error NimErr.invalidActionRange
    else if (num_discs : ℤ) < action then
      Except.error NimErr.invalidActionTooMany
    else Except.ok [(num_discs : ℤ) - action, 1 - state.getLastD 0]

/-- `GameNim.state_is_final`: `state[0] == 1` (element 0 of whatever value is
passed; on the one-hot encoding this means one piece left). -/
def GameNim.state_is_final (state : List ℤ) : Bool := state.getD 0 0 == 1

/-- `GameNim.p0_to_play`: `state[-1] == 0`. -/
def GameNim.p0_to_play (state : List ℤ) : Bool := state.getLastD 0 == 0

/-- `GameNim.winner_is_p0`: final and not player 0 to move. -/
def GameNim.winner_is_p0 (state : List ℤ) : Bool :=
  GameNim.state_is_final state && !GameNim.p0_to_play state

/-- `GameNim.get_one_hot_from_state`: a zero vector of length
`num_pieces + 1` with a 1 at the index of the current disc count, and the
pid appended. -/
def GameNim.get_one_hot_from_state (g : GameNim) (state_num : ℕ × ℤ) :
    List ℤ :=
  ((List.replicate (g.num_pieces + 1) (0 : ℤ)).set state_num.1 1) ++
    [state_num.2]

/-- `GameNim.get_initial_state`: one-hot encoding of
`(num_pieces, player 0)`. -/
def GameNim.get_initial_state (g : GameNim) : List ℤ :=
  g.get_one_hot_from_state (g.num_pieces, 0)

/-- Calling the oracle's `get_child_state` from within a search: the call
returns or raises, and either way the search statistics object is passed
through untouched (the method reads only `state` and `action`). -/
def get_child_state_call (g : GameNim) (state : List ℤ) (action : ℤ)
    (st : MCState (List ℤ) ℤ) :
    Except NimErr (List ℤ) × MCState (List ℤ) ℤ :=
  (g.get_child_state state action, st)

/-- `i` is the index of the first maximal element of `l` (the contract of
`np.argmax`): in range, no element is larger, and all earlier elements are
strictly smaller. -/
def IsFirstMax {O : Type} [LinearOrder O] (l : List O) (i : ℕ) : Prop :=
  ∃ h : i < l.length,
    (∀ j (hj : j < l.length), l.get ⟨j, hj⟩ ≤ l.get ⟨i, h⟩) ∧
    ∀ j (hj : j < l.length), j < i → l.get ⟨j, hj⟩ < l.get ⟨i, h⟩

/-- `i` is the index of the first minimal element of `l` (the contract of
`np.argmin`). -/
def IsFirstMin {O : Type} [LinearOrder O] (l : List O) (i : ℕ) : Prop :=
  ∃ h : i < l.length,
    (∀ j (hj : j < l.length), l.get ⟨i, h⟩ ≤ l.get ⟨j, hj⟩) ∧
    ∀ j (hj : j < l.length), j < i → l.get ⟨i, h⟩ < l.get ⟨j, hj⟩

/-- The selection score as the specification words it:
`actionValue(s,a) + sign * c * sqrt(ln(visitCount(s)) / (visitCount(s,a) + 1))`
with `sign = +1` for `playerToMove(s) = 0` and `sign = -1` otherwise. -/
noncomputable def spec_score (board : Board S A) (st : MCState S A) (s : S)
    (a : A) (c : ℝ) : ℝ :=
  (st.heuristic (s, a) : ℝ) +
    (if board.p0_to_play s then (1 : ℝ) else -1) * c *
      Real.sqrt (Real.log (st.visit_counts_s s : ℝ) /
        ((st.visit_counts_sa (s, a) : ℝ) + 1))

/-- Sum of the per-action visit counts of a state over its legal actions. -/
def sum_sa (board : Board S A) (st : MCState S A) (s : S) : ℕ :=
  ((board.get_legal_actions s).map (fun a => st.visit_counts_sa (s, a))).sum

/-- A sequence of calls to the Backup Engine: each entry is the aligned
visited-states/performed-actions pair of one simulation and its outcome. -/
def backup_calls (st : MCState S A) : List (List S × List A × ℚ) → MCState S A
  | [] => st
  | (vs, pa, v) :: rest => backup_calls (backup st vs pa v) rest

/-- All outcomes ever backed up through a given `(state, action)` pair by a
sequence of backup calls, with multiplicity. -/
def outcomes_through (q : S × A) : List (List S × List A × ℚ) → List ℚ
  | [] => []
  | (vs, pa, v) :: rest =>
    List.replicate ((vs.zip pa).count q) v ++ outcomes_through q rest

/-- Dummy computable numeric operations, used to evaluate the search loop on
concrete inputs (the flow theorems hold for every `NumOps` instance). -/
def qOps : NumOps ℚ := ⟨fun x => x, fun x => x⟩

/-- A concrete chain game used as evaluation input: states are counters,
the only legal move is to decrement, state 0 is final. -/
def wBoardN : Board ℕ ℕ :=
  { state_is_final := fun s => s == 0
    get_legal_actions := fun s => if s == 0 then [] else [1]
    get_child_state := fun s a => s - a
    p0_to_play := fun s => s % 2 == 0
    winner_is_p0 := fun s => s % 2 == 1 }

/-- The chain game with one-hot encoded actions, used to evaluate the
distribution pipeline on a concrete input. -/
def wBoardD : Board ℕ (List ℚ) :=
  { state_is_final := fun s => s == 0
    get_legal_actions := fun s => if s == 0 then [] else [one_hot_vec 1 0]
    get_child_state := fun s _ => s - 1
    p0_to_play := fun s => s % 2 == 0
    winner_is_p0 := fun s => s % 2 == 1 }

/-- Statistics after expanding the root of the chain game but before any
backup: the root's visit-count vector sums to zero. -/
def c5_state : MCState ℕ (List ℚ) := new_node wBoardD initialize_variables 1

/-- Default-policy realisation for the chain game with one-hot actions:
always propose the single canonical action. -/
def wPolD : ℕ → ℕ → ℕ → List ℚ := fun _ _ _ => one_hot_vec 1 0


theorem argmaxIdxAux_isFirstMax {O : Type} [LinearOrder O] (xs : List O) :
    ∀ (pre : List O) (best : O) (bestIdx : ℕ) (hlt : bestIdx < pre.length),
      pre.get ⟨bestIdx, hlt⟩ = best →
      (∀ j (hj : j < pre.length), pre.get ⟨j, hj⟩ ≤ best) →
      (∀ j (hj : j < pre.length), j < bestIdx → pre.get ⟨j, hj⟩ < best) →
      IsFirstMax (pre ++ xs) (argmaxIdxAux best bestIdx pre.length xs) := by
  induction xs with
  | nil =>
    intro pre best bestIdx hlt hval hmax hfst
    subst hval
    simp only [argmaxIdxAux, List.append_nil]
    exact ⟨hlt, hmax, hfst⟩
  | cons y ys ih =>
    intro pre best bestIdx hlt hval hmax hfst
    subst hval
    rw [show pre ++ y :: ys = (pre ++ [y]) ++ ys by simp]
    simp only [argmaxIdxAux]
    have hlen : pre.length + 1 = (pre ++ [y]).length := by simp
    have h1 : pre.length < (pre ++ [y]).length := by simp
    have hbi : bestIdx < (pre ++ [y]).length := by simp; omega
    by_cases hby : pre.get ⟨bestIdx, hlt⟩ < y
    · rw [if_pos hby, hlen]
      refine ih (pre ++ [y]) y pre.length h1 ?_ ?_ ?_
      · simp only [List.get_eq_getElem]
        exact List.getElem_concat_length pre y pre.length rfl h1
      · intro j hj
        simp only [List.get_eq_getElem]
        rcases Nat.lt_or_ge j pre.length with hjp | hjp
        · rw [List.getElem_append_left hjp]
          exact le_of_lt (lt_of_le_of_lt (by simpa using hmax j hjp) hby)
        · have hje : j = pre.length := by simp at hj; omega
          subst hje
          rw [List.getElem_concat_length pre y pre.length rfl hj]
      · intro j hj hji
        have hjp : j < pre.length := hji
        simp only [List.get_eq_getElem]
        rw [List.getElem_append_left hjp]
        exact lt_of_le_of_lt (by simpa using hmax j hjp) hby
    · rw [if_neg hby, hlen]
      refine ih (pre ++ [y]) (pre.get ⟨bestIdx, hlt⟩) bestIdx hbi ?_ ?_ ?_
      · simp only [List.get_eq_getElem]
        rw [List.getElem_append_left hlt]
      · intro j hj
        simp only [List.get_eq_getElem]
        rcases Nat.lt_or_ge j pre.length with hjp | hjp
        · rw [List.getElem_append_left hjp]
          simpa using hmax j hjp
        · have hje : j = pre.length := by simp at hj; omega
          subst hje
          rw [List.getElem_concat_length pre y pre.length rfl hj]
          exact le_of_not_lt hby
      · intro j hj hji
        have hjp : j < pre.length := lt_trans hji hlt
        simp only [List.get_eq_getElem]
        rw [List.getElem_append_left hjp]
        simpa using hfst j hjp hji

theorem argmaxIdx_isFirstMax {O : Type} [LinearOrder O] :
    ∀ (l : List O), l ≠ [] → IsFirstMax l (argmaxIdx l)
  | x :: xs, _ => by
    have h := argmaxIdxAux_isFirstMax xs [x] x 0 (by simp) (by simp)
      (by intro j hj
          have hj0 : j = 0 := by simp at hj; omega
          subst hj0; simp)
      (by intro j hj hj0; omega)
    exact h

theorem argminIdxAux_isFirstMin {O : Type} [LinearOrder O] (xs : List O) :
    ∀ (pre : List O) (best : O) (bestIdx : ℕ) (hlt : bestIdx < pre.length),
      pre.get ⟨bestIdx, hlt⟩ = best →
      (∀ j (hj : j < pre.length), best ≤ pre.get ⟨j, hj⟩) →
      (∀ j (hj : j < pre.length), j < bestIdx → best < pre.get ⟨j, hj⟩) →
      IsFirstMin (pre ++ xs) (argminIdxAux best bestIdx pre.length xs) := by
  induction xs with
  | nil =>
    intro pre best bestIdx hlt hval hmax hfst
    subst hval
    simp only [argminIdxAux, List.append_nil]
    exact ⟨hlt, hmax, hfst⟩
  | cons y ys ih =>
    intro pre best bestIdx hlt hval hmax hfst
    subst hval
    rw [show pre ++ y :: ys = (pre ++ [y]) ++ ys by simp]
    simp only [argminIdxAux]
    have hlen : pre.length + 1 = (pre ++ [y]).length := by simp
    have h1 : pre.length < (pre ++ [y]).length := by simp
    have hbi : bestIdx < (pre ++ [y]).length := by simp; omega
    by_cases hby : y < pre.get ⟨bestIdx, hlt⟩
    · rw [if_pos hby, hlen]
      refine ih (pre ++ [y]) y pre.length h1 ?_ ?_ ?_
      · simp only [List.get_eq_getElem]
        exact List.getElem_concat_length pre y pre.length rfl h1
      · intro j hj
        simp only [List.get_eq_getElem]
        rcases Nat.lt_or_ge j pre.length with hjp | hjp
        · rw [List.getElem_append_left hjp]
          exact le_of_lt (lt_of_lt_of_le hby (by simpa using hmax j hjp))
        · have hje : j = pre.length := by simp at hj; omega
          subst hje
          rw [List.getElem_concat_length pre y pre.length rfl hj]
      · intro j hj hji
        have hjp : j < pre.length := hji
        simp only [List.get_eq_getElem]
        rw [List.getElem_append_left hjp]
        exact lt_of_lt_of_le hby (by simpa using hmax j hjp)
    · rw [if_neg hby, hlen]
      refine ih (pre ++ [y]) (pre.get ⟨bestIdx, hlt⟩) bestIdx hbi ?_ ?_ ?_
      · simp only [List.get_eq_getElem]
        rw [List.getElem_append_left hlt]
      · intro j hj
        simp only [List.get_eq_getElem]
        rcases Nat.lt_or_ge j pre.length with hjp | hjp
        · rw [List.getElem_append_left hjp]
          simpa using hmax j hjp
        · have hje : j = pre.length := by simp at hj; omega
          subst hje
          rw [List.getElem_concat_length pre y pre.length rfl hj]
          exact le_of_not_lt hby
      · intro j hj hji
        have hjp : j < pre.length := lt_trans hji hlt
        simp only [List.get_eq_getElem]
        rw [List.getElem_append_left hjp]
        simpa using hfst j hjp hji

theorem argminIdx_isFirstMin {O : Type} [LinearOrder O] :
    ∀ (l : List O), l ≠ [] → IsFirstMin l (argminIdx l)
  | x :: xs, _ => by
    have h := argminIdxAux_isFirstMin xs [x] x 0 (by simp) (by simp)
      (by intro j hj
          have hj0 : j = 0 := by simp at hj; omega
          subst hj0; simp)
      (by intro j hj hj0; omega)
    exact h

theorem select_action_mem {ops : NumOps R} {board : Board S A}
    {st : MCState S A} {s : S} {c : R} {a : A}
    (h : select_action ops board st s c = some a) :
    a ∈ board.get_legal_actions s := by
  simp only [select_action] at h
  split at h
  · obtain ⟨hl, he⟩ := List.getElem?_eq_some_iff.mp h
    exact he ▸ List.getElem_mem hl
  · obtain ⟨hl, he⟩ := List.getElem?_eq_some_iff.mp h
    exact he ▸ List.getElem_mem hl

theorem select_action_eq_get (ops : NumOps R) (board : Board S A)
    (st : MCState S A) (s : S) (c : R)
    (hne : board.get_legal_actions s ≠ []) :
    ∃ (i : ℕ) (hi : i < (board.get_legal_actions s).length),
      select_action ops board st s c =
        some ((board.get_legal_actions s).get ⟨i, hi⟩) ∧
      (board.p0_to_play s = true →
        IsFirstMax ((board.get_legal_actions s).map (fun action =>
          (st.heuristic (s, action) : R) + c *
            ops.sqrt (ops.log (st.visit_counts_s s : R) /
              ((st.visit_counts_sa (s, action) : R) + 1)))) i) ∧
      (board.p0_to_play s = false →
        IsFirstMin ((board.get_legal_actions s).map (fun action =>
          (st.heuristic (s, action) : R) - c *
            ops.sqrt (ops.log (st.visit_counts_s s : R) /
              ((st.visit_counts_sa (s, action) : R) + 1)))) i) := by
  by_cases hp : board.p0_to_play s
  · have hmne : (board.get_legal_actions s).map (fun action =>
        (st.heuristic (s, action) : R) + c *
          ops.sqrt (ops.log (st.visit_counts_s s : R) /
            ((st.visit_counts_sa (s, action) : R) + 1))) ≠ [] := by
      simpa using hne
    have hM := argmaxIdx_isFirstMax _ hmne
    obtain ⟨hlen, -, -⟩ := id hM
    rw [List.length_map] at hlen
    refine ⟨_, hlen, ?_, fun _ => hM, fun hf => by rw [hp] at hf; cases hf⟩
    simp only [select_action, if_pos hp, List.get_eq_getElem]
    exact List.getElem?_eq_getElem hlen
  · have hmne : (board.get_legal_actions s).map (fun action =>
        (st.heuristic (s, action) : R) - c *
          ops.sqrt (ops.log (st.visit_counts_s s : R) /
            ((st.visit_counts_sa (s, action) : R) + 1))) ≠ [] := by
      simpa using hne
    have hM := argminIdx_isFirstMin _ hmne
    obtain ⟨hlen, -, -⟩ := id hM
    rw [List.length_map] at hlen
    refine ⟨_, hlen, ?_, fun ht => absurd ht hp, fun _ => hM⟩
    simp only [select_action, if_neg hp, List.get_eq_getElem]
    exact List.getElem?_eq_getElem hlen

theorem backup_step_tree (v : ℚ) (st : MCState S A) (p : S × A) :
    (backup_step v st p).tree = st.tree := rfl

theorem backup_step_vc_sa_same (v : ℚ) (st : MCState S A) (q : S × A) :
    (backup_step v st q).visit_counts_sa q = st.visit_counts_sa q + 1 := by
  simp [backup_step]

theorem backup_step_vc_sa_ne (v : ℚ) (st : MCState S A) {p q : S × A}
    (h : q ≠ p) :
    (backup_step v st p).visit_counts_sa q = st.visit_counts_sa q := by
  simp [backup_step, Function.update_noteq h]

theorem backup_step_vc_s_same (v : ℚ) (st : MCState S A) (p : S × A) :
    (backup_step v st p).visit_counts_s p.1 = st.visit_counts_s p.1 + 1 := by
  simp [backup_step]

theorem backup_step_vc_s_ne (v : ℚ) (st : MCState S A) {p : S × A} {s : S}
    (h : s ≠ p.1) :
    (backup_step v st p).visit_counts_s s = st.visit_counts_s s := by
  simp [backup_step, Function.update_noteq h]

theorem backup_step_heuristic_ne (v : ℚ) (st : MCState S A) {p q : S × A}
    (h : q ≠ p) :
    (backup_step v st p).heuristic q = st.heuristic q := by
  simp [backup_step, Function.update_noteq h]

theorem backup_step_heuristic_mul (v : ℚ) (st : MCState S A) (q : S × A) :
    (backup_step v st q).heuristic q *
        ((backup_step v st q).visit_counts_sa q : ℚ) =
      st.heuristic q * (st.visit_counts_sa q : ℚ) + v := by
  have hpos : ((st.visit_counts_sa q : ℚ) + 1) ≠ 0 := by positivity
  simp only [backup_step, Function.update_same]
  field_simp
  ring

theorem foldl_backup_tree (v : ℚ) (P : List (S × A)) :
    ∀ st : MCState S A, (P.foldl (backup_step v) st).tree = st.tree := by
  induction P with
  | nil => intro st; rfl
  | cons p P ih =>
    intro st
    rw [List.foldl_cons, ih, backup_step_tree]

theorem foldl_backup_vc_sa (v : ℚ) (P : List (S × A)) :
    ∀ (st : MCState S A) (q : S × A),
      (P.foldl (backup_step v) st).visit_counts_sa q =
        st.visit_counts_sa q + P.count q := by
  induction P with
  | nil => intro st q; simp
  | cons p P ih =>
    intro st q
    rw [List.foldl_cons, ih, List.count_cons]
    by_cases hpq : p = q
    · subst hpq
      rw [backup_step_vc_sa_same]
      simp
      omega
    · rw [backup_step_vc_sa_ne v st (Ne.symm hpq)]
      simp [hpq]

theorem foldl_backup_vc_s (v : ℚ) (P : List (S × A)) :
    ∀ (st : MCState S A) (s : S),
      (P.foldl (backup_step v) st).visit_counts_s s =
        st.visit_counts_s s + (P.map Prod.fst).count s := by
  induction P with
  | nil => intro st s; simp
  | cons p P ih =>
    intro st s
    rw [List.foldl_cons, ih, List.map_cons, List.count_cons]
    by_cases hps : p.1 = s
    · subst hps
      rw [backup_step_vc_s_same]
      simp
      omega
    · rw [backup_step_vc_s_ne v st (Ne.symm hps)]
      simp [hps]

theorem foldl_backup_heuristic_mul (v : ℚ) (P : List (S × A)) :
    ∀ (st : MCState S A) (q : S × A),
      (P.foldl (backup_step v) st).heuristic q *
          ((P.foldl (backup_step v) st).visit_counts_sa q : ℚ) =
        st.heuristic q * (st.visit_counts_sa q : ℚ) + (P.count q : ℚ) * v := by
  induction P with
  | nil => intro st q; simp
  | cons p P ih =>
    intro st q
    rw [List.foldl_cons, ih, List.count_cons]
    by_cases hpq : p = q
    · subst hpq
      rw [backup_step_heuristic_mul]
      simp
      ring
    · rw [backup_step_heuristic_ne v st (Ne.symm hpq),
        backup_step_vc_sa_ne v st (Ne.symm hpq)]
      simp [hpq]

theorem backup_step_heuristic_range (v : ℚ) (st : MCState S A) (p : S × A)
    (hv0 : 0 ≤ v) (hv1 : v ≤ 1)
    (hst : ∀ q, 0 ≤ st.heuristic q ∧ st.heuristic q ≤ 1) :
    ∀ q, 0 ≤ (backup_step v st p).heuristic q ∧
      (backup_step v st p).heuristic q ≤ 1 := by
  intro q
  by_cases hpq : q = p
  · subst hpq
    obtain ⟨hq0, hq1⟩ := hst q
    simp only [backup_step, Function.update_same]
    have hn : (0 : ℚ) ≤ (st.visit_counts_sa q : ℚ) := by positivity
    have hpos : (0 : ℚ) < (st.visit_counts_sa q : ℚ) + 1 := by positivity
    have heq : st.heuristic q +
        (v - st.heuristic q) / ((st.visit_counts_sa q : ℚ) + 1) =
        (st.heuristic q * (st.visit_counts_sa q : ℚ) + v) /
          ((st.visit_counts_sa q : ℚ) + 1) := by
      field_simp
      ring
    push_cast
    push_cast at heq
    rw [heq]
    constructor
    · apply div_nonneg _ (le_of_lt hpos)
      nlinarith
    · rw [div_le_one hpos]
      nlinarith
  · rw [backup_step_heuristic_ne v st hpq]
    exact hst q

theorem foldl_backup_heuristic_range (v : ℚ) (P : List (S × A))
    (hv0 : 0 ≤ v) (hv1 : v ≤ 1) :
    ∀ st : MCState S A,
      (∀ q, 0 ≤ st.heuristic q ∧ st.heuristic q ≤ 1) →
      ∀ q, 0 ≤ (P.foldl (backup_step v) st).heuristic q ∧
        (P.foldl (backup_step v) st).heuristic q ≤ 1 := by
  induction P with
  | nil => intro st hst; exact hst
  | cons p P ih =>
    intro st hst
    rw [List.foldl_cons]
    exact ih _ (backup_step_heuristic_range v st p hv0 hv1 hst)

theorem foldl_nn_tree (t : S) (l : List A) :
    ∀ acc : MCState S A, (l.foldl (nn_step t) acc).tree = acc.tree := by
  induction l with
  | nil => intro acc; rfl
  | cons a l ih => intro acc; rw [List.foldl_cons, ih]; rfl

theorem foldl_nn_vc_s (t : S) (l : List A) :
    ∀ acc : MCState S A,
      (l.foldl (nn_step t) acc).visit_counts_s = acc.visit_counts_s := by
  induction l with
  | nil => intro acc; rfl
  | cons a l ih => intro acc; rw [List.foldl_cons, ih]; rfl

theorem foldl_nn_sa_ne (t : S) (l : List A) :
    ∀ (acc : MCState S A) (q : S × A), q.1 ≠ t →
      (l.foldl (nn_step t) acc).visit_counts_sa q = acc.visit_counts_sa q ∧
      (l.foldl (nn_step t) acc).heuristic q = acc.heuristic q := by
  induction l with
  | nil => intro acc q _; exact ⟨rfl, rfl⟩
  | cons a l ih =>
    intro acc q hq
    rw [List.foldl_cons]
    obtain ⟨h1, h2⟩ := ih (nn_step t acc a) q hq
    have hne : q ≠ (t, a) := by
      intro he
      exact hq (by rw [he])
    constructor
    · rw [h1]
      simp [nn_step, Function.update_noteq hne]
    · rw [h2]
      simp [nn_step, Function.update_noteq hne]

theorem foldl_nn_sa_notmem (t : S) (l : List A) :
    ∀ (acc : MCState S A) (a : A), a ∉ l →
      (l.foldl (nn_step t) acc).visit_counts_sa (t, a) =
        acc.visit_counts_sa (t, a) ∧
      (l.foldl (nn_step t) acc).heuristic (t, a) = acc.heuristic (t, a) := by
  induction l with
  | nil => intro acc a _; exact ⟨rfl, rfl⟩
  | cons b l ih =>
    intro acc a ha
    rw [List.foldl_cons]
    have hab : a ≠ b := fun he => ha (he ▸ List.mem_cons_self b l)
    have hal : a ∉ l := fun he => ha (List.mem_cons_of_mem b he)
    obtain ⟨h1, h2⟩ := ih (nn_step t acc b) a hal
    have hne : (t, a) ≠ (t, b) := by
      intro he
      exact hab (congrArg Prod.snd he)
    constructor
    · rw [h1]
      simp [nn_step, Function.update_noteq hne]
    · rw [h2]
      simp [nn_step, Function.update_noteq hne]

theorem foldl_nn_sa_mem (t : S) (l : List A) :
    ∀ (acc : MCState S A) (a : A), a ∈ l →
      (l.foldl (nn_step t) acc).visit_counts_sa (t, a) = 0 ∧
      (l.foldl (nn_step t) acc).heuristic (t, a) = 0 := by
  induction l with
  | nil => intro acc a ha; cases ha
  | cons b l ih =>
    intro acc a ha
    rw [List.foldl_cons]
    by_cases hal : a ∈ l
    · exact ih (nn_step t acc b) a hal
    · have hab : a = b := by
        rcases List.mem_cons.mp ha with h | h
        · exact h
        · exact absurd h hal
      subst hab
      obtain ⟨h1, h2⟩ := foldl_nn_sa_notmem t l (nn_step t acc a) a hal
      constructor
      · rw [h1]
        simp [nn_step]
      · rw [h2]
        simp [nn_step]

theorem new_node_tree (board : Board S A) (st : MCState S A) (t : S) :
    (new_node board st t).tree = t :: st.tree := by
  rw [new_node, foldl_nn_tree]

theorem new_node_vc_s (board : Board S A) (st : MCState S A) (t : S) :
    (new_node board st t).visit_counts_s =
      Function.update st.visit_counts_s t 0 := by
  rw [new_node, foldl_nn_vc_s]

theorem new_node_sa_ne (board : Board S A) (st : MCState S A) (t : S)
    (q : S × A) (hq : q.1 ≠ t) :
    (new_node board st t).visit_counts_sa q = st.visit_counts_sa q ∧
    (new_node board st t).heuristic q = st.heuristic q := by
  rw [new_node]
  exact foldl_nn_sa_ne t _ _ q hq

theorem new_node_sa_mem (board : Board S A) (st : MCState S A) (t : S)
    (a : A) (ha : a ∈ board.get_legal_actions t) :
    (new_node board st t).visit_counts_sa (t, a) = 0 ∧
    (new_node board st t).heuristic (t, a) = 0 := by
  rw [new_node]
  exact foldl_nn_sa_mem t _ _ a ha

theorem nn_step_heuristic_range (t : S) (acc : MCState S A) (a : A)
    (hst : ∀ q, 0 ≤ acc.heuristic q ∧ acc.heuristic q ≤ 1) :
    ∀ q, 0 ≤ (nn_step t acc a).heuristic q ∧ (nn_step t acc a).heuristic q ≤ 1 := by
  intro q
  by_cases hq : q = (t, a)
  · subst hq
    simp [nn_step]
  · rw [show (nn_step t acc a).heuristic q = acc.heuristic q by
      simp [nn_step, Function.update_noteq hq]]
    exact hst q

theorem foldl_nn_heuristic_range (t : S) (l : List A) :
    ∀ acc : MCState S A,
      (∀ q, 0 ≤ acc.heuristic q ∧ acc.heuristic q ≤ 1) →
      ∀ q, 0 ≤ (l.foldl (nn_step t) acc).heuristic q ∧
        (l.foldl (nn_step t) acc).heuristic q ≤ 1 := by
  induction l with
  | nil => intro acc hst; exact hst
  | cons a l ih =>
    intro acc hst
    rw [List.foldl_cons]
    exact ih _ (nn_step_heuristic_range t acc a hst)

theorem new_node_heuristic_range (board : Board S A) (st : MCState S A) (t : S)
    (hst : ∀ q, 0 ≤ st.heuristic q ∧ st.heuristic q ≤ 1) :
    ∀ q, 0 ≤ (new_node board st t).heuristic q ∧
      (new_node board st t).heuristic q ≤ 1 := by
  rw [new_node]
  exact foldl_nn_heuristic_range t _ _ hst

theorem simulate_tree_spec (ops : NumOps R) (board : Board S A) (c : R) :
    ∀ (fuel : ℕ) (st : MCState S A) (s : S) (vs : List S) (pa : List A)
      (sf : S) (st' : MCState S A),
      simulate_tree ops board c fuel st s = some (vs, pa, sf, st') →
      (∀ p ∈ vs.zip pa, p.1 ∈ st.tree ∧ p.2 ∈ board.get_legal_actions p.1) ∧
      ((st' = st ∧ vs.length = pa.length ∧ board.state_is_final sf = true) ∨
       (∃ ws, vs = ws ++ [sf] ∧ ws.length = pa.length ∧ sf ∉ st.tree ∧
         board.state_is_final sf = false ∧ st' = new_node board st sf)) ∧
      (board.state_is_final s = false →
        (s ∈ st.tree → ∃ a pa2 vs2, pa = a :: pa2 ∧ vs = s :: vs2) ∧
        (s ∉ st.tree → vs = [s] ∧ pa = [] ∧ sf = s)) := by
  intro fuel
  induction fuel with
  | zero => intro st s vs pa sf st' h; cases h
  | succ fuel ih =>
    intro st s vs pa sf st' h
    rw [simulate_tree] at h
    split at h
    case isTrue hfin =>
      simp only [Option.some.injEq, Prod.mk.injEq] at h
      obtain ⟨h1, h2, h3, h4⟩ := h
      subst h1
      subst h2
      subst h3
      subst h4
      refine ⟨by simp, Or.inl ⟨rfl, rfl, hfin⟩, ?_⟩
      intro hnf
      rw [hnf] at hfin
      cases hfin
    case isFalse hfin =>
      have hnf : board.state_is_final s = false := by
        simpa using hfin
      split at h
      case isTrue hmem =>
        cases hsel : select_action ops board st s c with
        | none =>
          rw [hsel] at h
          simp at h
        | some action =>
          rw [hsel] at h
          dsimp only at h
          cases hrec : simulate_tree ops board c fuel st
              (board.get_child_state s action) with
          | none =>
            rw [hrec] at h
            simp at h
          | some r =>
            obtain ⟨vs1, pa1, sf1, st1⟩ := r
            rw [hrec] at h
            simp only [Option.some.injEq, Prod.mk.injEq] at h
            obtain ⟨h1, h2, h3, h4⟩ := h
            subst h1
            subst h2
            subst h3
            subst h4
            obtain ⟨hpairs, hdisj, -⟩ := ih st _ vs1 pa1 _ _ hrec
            refine ⟨?_, ?_, ?_⟩
            · intro p hp
              rw [List.zip_cons_cons] at hp
              rcases List.mem_cons.mp hp with hp | hp
              · subst hp
                exact ⟨hmem, select_action_mem hsel⟩
              · exact hpairs p hp
            · rcases hdisj with ⟨hst, hlen, hf⟩ | ⟨ws, hvs, hlen, hnm, hnf2, hst⟩
              · exact Or.inl ⟨hst, by simp [hlen], hf⟩
              · refine Or.inr ⟨s :: ws, by rw [hvs]; rfl, by simp [hlen],
                  hnm, hnf2, hst⟩
            · intro _
              exact ⟨fun _ => ⟨action, pa1, vs1, rfl, rfl⟩,
                fun hns => absurd hmem hns⟩
      case isFalse hmem =>
        simp only [Option.some.injEq, Prod.mk.injEq] at h
        obtain ⟨h1, h2, h3, h4⟩ := h
        subst h1
        subst h2
        subst h3
        subst h4
        refine ⟨by simp, Or.inr ⟨[], by simp, rfl, hmem, hnf, rfl⟩, ?_⟩
        intro _
        exact ⟨fun hm => absurd hm hmem, fun _ => ⟨rfl, rfl, rfl⟩⟩

theorem simulate_default_spec (board : Board S A) (pol : ℕ → S → A)
    (fuelR : ℕ) (s : S) (outcome : Bool) (fa : Option A)
    (h : simulate_default board pol fuelR s = some (outcome, fa)) :
    (board.state_is_final s = true → fa = none) ∧
    (board.state_is_final s = false → fa = some (pol 0 s)) := by
  rw [simulate_default] at h
  split at h
  case isTrue hfin =>
    simp only [Option.some.injEq, Prod.mk.injEq] at h
    exact ⟨fun _ => h.2.symm, fun hnf => by rw [hnf] at hfin; cases hfin⟩
  case isFalse hfin =>
    dsimp only at h
    cases hroll : rollout_loop board pol fuelR 1
        (board.get_child_state s (pol 0 s)) with
    | none =>
      rw [hroll] at h
      simp at h
    | some sf2 =>
      rw [hroll] at h
      simp only [Option.map_some', Option.some.injEq, Prod.mk.injEq] at h
      refine ⟨fun hf => by rw [hf] at hfin; simp at hfin, fun _ => h.2.symm⟩

theorem simulate_destruct (ops : NumOps R) (board : Board S A) (c : R)
    (pol : ℕ → S → A) (fuelT fuelR : ℕ) (st : MCState S A) (root : S)
    (st' : MCState S A)
    (h : simulate ops board c pol fuelT fuelR st root = some st') :
    ∃ vs pa sf st1 outcome fa,
      simulate_tree ops board c fuelT st root = some (vs, pa, sf, st1) ∧
      simulate_default board pol fuelR sf = some (outcome, fa) ∧
      st' = backup st1 vs
        (match fa with | some a => pa ++ [a] | none => pa)
        (if outcome then 1 else 0) := by
  rw [simulate] at h
  cases hST : simulate_tree ops board c fuelT st root with
  | none =>
    rw [hST] at h
    simp at h
  | some r =>
    obtain ⟨vs, pa, sf, st1⟩ := r
    rw [hST] at h
    dsimp only at h
    cases hSD : simulate_default board pol fuelR sf with
    | none =>
      rw [hSD] at h
      simp at h
    | some rr =>
      obtain ⟨outcome, fa⟩ := rr
      rw [hSD] at h
      simp only [Option.some.injEq] at h
      exact ⟨vs, pa, sf, st1, outcome, fa, rfl, hSD, h.symm⟩

theorem simulate_spec (ops : NumOps R) (board : Board S A) (c : R)
    (pol : ℕ → S → A) (fuelT fuelR : ℕ) (st : MCState S A) (root : S)
    (st' : MCState S A)
    (h : simulate ops board c pol fuelT fuelR st root = some st') :
    ∃ (P : List (S × A)) (v : ℚ) (st1 : MCState S A),
      st' = P.foldl (backup_step v) st1 ∧ (v = 0 ∨ v = 1) ∧
      (∀ p ∈ P, p.1 ∈ st1.tree ∧
        (p.2 ∈ board.get_legal_actions p.1 ∨
          (board.state_is_final p.1 = false ∧ p.2 = pol 0 p.1))) ∧
      (st1 = st ∨ ∃ leaf, leaf ∉ st.tree ∧ board.state_is_final leaf = false ∧
        st1 = new_node board st leaf ∧ leaf ∈ P.map Prod.fst) ∧
      (board.state_is_final root = false → ∃ a P2, P = (root, a) :: P2) := by
  obtain ⟨vs, pa, sf, st1, outcome, fa, hST, hSD, hB⟩ :=
    simulate_destruct ops board c pol fuelT fuelR st root st' h
  obtain ⟨hpairs, hdisj, hhead⟩ :=
    simulate_tree_spec ops board c fuelT st root vs pa sf st1 hST
  obtain ⟨hfaT, hfaF⟩ := simulate_default_spec board pol fuelR sf outcome fa hSD
  rcases hdisj with ⟨hst1, hlen, hfin⟩ | ⟨ws, hvs, hlen, hnm, hnf, hst1⟩
  · -- descent stopped at a terminal state: no bridging action, no new node
    have hfa : fa = none := hfaT hfin
    subst hfa
    refine ⟨vs.zip pa, if outcome then 1 else 0, st1, by rw [hB]; rfl,
      by cases outcome <;> simp, ?_, Or.inl hst1, ?_⟩
    · intro p hp
      obtain ⟨hp1, hp2⟩ := hpairs p hp
      exact ⟨by rw [hst1]; exact hp1, Or.inl hp2⟩
    · intro hroot
      obtain ⟨hintree, hnotin⟩ := hhead hroot
      by_cases hmem : root ∈ st.tree
      · obtain ⟨a, pa2, vs2, hpa, hvs⟩ := hintree hmem
        exact ⟨a, vs2.zip pa2, by rw [hpa, hvs, List.zip_cons_cons]⟩
      · obtain ⟨hvs, hpa, hsf⟩ := hnotin hmem
        rw [hsf] at hfin
        rw [hroot] at hfin
        cases hfin
  · -- descent stopped at a fresh leaf: the leaf is expanded and the
    -- bridging action credits it during backup
    have hfa : fa = some (pol 0 sf) := hfaF hnf
    subst hfa
    have hzip : vs.zip (pa ++ [pol 0 sf]) =
        ws.zip pa ++ [(sf, pol 0 sf)] := by
      rw [hvs, List.zip_append hlen]
      rfl
    have hzip0 : vs.zip pa = ws.zip pa := by
      conv_lhs => rw [hvs, show pa = pa ++ [] by simp]
      rw [List.zip_append hlen]
      simp
    refine ⟨vs.zip (pa ++ [pol 0 sf]), if outcome then 1 else 0, st1,
      by rw [hB]; rfl, by cases outcome <;> simp, ?_, ?_, ?_⟩
    · intro p hp
      rw [hzip] at hp
      rcases List.mem_append.mp hp with hp | hp
      · have hp' : p ∈ vs.zip pa := by rw [hzip0]; exact hp
        obtain ⟨hp1, hp2⟩ := hpairs p hp'
        refine ⟨?_, Or.inl hp2⟩
        rw [hst1, new_node_tree]
        exact List.mem_cons_of_mem sf hp1
      · have hp' : p = (sf, pol 0 sf) := by simpa using hp
        subst hp'
        refine ⟨?_, Or.inr ⟨hnf, rfl⟩⟩
        rw [hst1, new_node_tree]
        exact List.mem_cons_self sf _
    · refine Or.inr ⟨sf, hnm, hnf, hst1, ?_⟩
      rw [hzip, List.map_append]
      simp
    · intro hroot
      obtain ⟨hintree, hnotin⟩ := hhead hroot
      by_cases hmem : root ∈ st.tree
      · obtain ⟨a, pa2, vs2, hpa, hvs2⟩ := hintree hmem
        refine ⟨a, vs2.zip (pa2 ++ [pol 0 sf]), ?_⟩
        rw [hvs2, hpa, List.cons_append, List.zip_cons_cons]
      · obtain ⟨hvs2, hpa, hsf⟩ := hnotin hmem
        refine ⟨pol 0 sf, [], ?_⟩
        rw [hvs2, hpa, hsf]
        rfl

theorem sum_map_add_nat (L : List A) (f g : A → ℕ) :
    (L.map (fun a => f a + g a)).sum = (L.map f).sum + (L.map g).sum := by
  induction L with
  | nil => simp
  | cons x L ih =>
    simp only [List.map_cons, List.sum_cons, ih]
    ring

theorem sum_map_ite_eq (L : List A) (b : A) :
    (L.map (fun a => if a = b then (1 : ℕ) else 0)).sum = L.count b := by
  induction L with
  | nil => simp
  | cons x L ih =>
    simp only [List.map_cons, List.sum_cons, ih, List.count_cons, beq_iff_eq]
    by_cases hx : x = b
    · simp [hx]
      omega
    · simp [hx]

theorem count_pairs_sum (s : S) (L : List A) (hnd : L.Nodup) :
    ∀ P : List (S × A), (∀ p ∈ P, p.1 = s → p.2 ∈ L) →
      (L.map (fun a => P.count (s, a))).sum = (P.map Prod.fst).count s := by
  intro P
  induction P with
  | nil => intro _; simp
  | cons p P ih =>
    intro hleg
    have hP : ∀ p2 ∈ P, p2.1 = s → p2.2 ∈ L := by
      intro p2 hp2 hps
      exact hleg p2 (List.mem_cons_of_mem p hp2) hps
    have hcc : ∀ a : A, (p :: P).count (s, a) =
        P.count (s, a) + (if p = (s, a) then 1 else 0) := by
      intro a
      rw [List.count_cons]
      simp
    rw [List.map_congr_left (fun a _ => hcc a), sum_map_add_nat,
      ih hP, List.map_cons, List.count_cons]
    by_cases hps : p.1 = s
    · have hpL : p.2 ∈ L := hleg p (List.mem_cons_self p P) hps
      have hite : ∀ a ∈ L, (if p = (s, a) then (1 : ℕ) else 0) =
          (if a = p.2 then (1 : ℕ) else 0) := by
        intro a _
        by_cases hap : a = p.2
        · subst hap
          simp [Prod.ext_iff, hps]
        · have : p ≠ (s, a) := by
            intro he
            exact hap (by rw [he])
          simp [this, hap]
      rw [List.map_congr_left hite, sum_map_ite_eq,
        List.count_eq_one_of_mem hnd hpL]
      simp [hps]
    · have hite : ∀ a ∈ L, (if p = (s, a) then (1 : ℕ) else 0) = 0 := by
        intro a _
        have : p ≠ (s, a) := by
          intro he
          exact hps (by rw [he])
        simp [this]
      rw [List.map_congr_left hite]
      simp [Ne.symm hps, hps]

theorem sum_sa_foldl_backup (board : Board S A) (v : ℚ) (P : List (S × A))
    (st1 : MCState S A) (s : S)
    (hnd : (board.get_legal_actions s).Nodup)
    (hleg : ∀ p ∈ P, p.1 = s → p.2 ∈ board.get_legal_actions s) :
    sum_sa board (P.foldl (backup_step v) st1) s =
      sum_sa board st1 s + (P.map Prod.fst).count s := by
  rw [sum_sa, sum_sa,
    List.map_congr_left (fun a _ => foldl_backup_vc_sa v P st1 (s, a)),
    sum_map_add_nat, count_pairs_sum s _ hnd P hleg]

theorem simulate_tree_effect (ops : NumOps R) (board : Board S A) (c : R)
    (pol : ℕ → S → A) (fuelT fuelR : ℕ) (st : MCState S A) (root : S)
    (st' : MCState S A)
    (h : simulate ops board c pol fuelT fuelR st root = some st') :
    st.tree ⊆ st'.tree ∧
      (st'.tree = st.tree ∨ ∃ t, t ∉ st.tree ∧ st'.tree = t :: st.tree) := by
  obtain ⟨P, v, st1, hB, -, -, hdisj, -⟩ :=
    simulate_spec ops board c pol fuelT fuelR st root st' h
  have htree : st'.tree = st1.tree := by rw [hB, foldl_backup_tree]
  rcases hdisj with hst1 | ⟨leaf, hnm, -, hst1, -⟩
  · rw [htree, hst1]
    exact ⟨fun x hx => hx, Or.inl rfl⟩
  · rw [htree, hst1, new_node_tree]
    exact ⟨fun x hx => List.mem_cons_of_mem leaf hx, Or.inr ⟨leaf, hnm, rfl⟩⟩

theorem simulate_vc_s_pos (ops : NumOps R) (board : Board S A) (c : R)
    (pol : ℕ → S → A) (fuelT fuelR : ℕ) (st : MCState S A) (root : S)
    (st' : MCState S A)
    (h : simulate ops board c pol fuelT fuelR st root = some st')
    (hInv : ∀ s ∈ st.tree, 1 ≤ st.visit_counts_s s) :
    ∀ s ∈ st'.tree, 1 ≤ st'.visit_counts_s s := by
  obtain ⟨P, v, st1, hB, -, -, hdisj, -⟩ :=
    simulate_spec ops board c pol fuelT fuelR st root st' h
  have htree : st'.tree = st1.tree := by rw [hB, foldl_backup_tree]
  intro s hs
  rw [htree] at hs
  rw [hB, foldl_backup_vc_s]
  rcases hdisj with hst1 | ⟨leaf, hnm, -, hst1, hmem⟩
  · subst hst1
    have := hInv s hs
    omega
  · subst hst1
    rw [new_node_tree] at hs
    rcases List.mem_cons.mp hs with hse | hse
    · subst hse
      have hcount : 0 < (P.map Prod.fst).count s :=
        List.count_pos_iff.mpr hmem
      omega
    · have hne : s ≠ leaf := by
        intro he
        exact hnm (he ▸ hse)
      rw [new_node_vc_s, Function.update_noteq hne]
      have := hInv s hse
      omega

theorem simulate_inv3 (ops : NumOps R) (board : Board S A) (c : R)
    (pol : ℕ → S → A) (fuelT fuelR : ℕ) (st : MCState S A) (root : S)
    (st' : MCState S A)
    (hpol : ∀ k s2, board.state_is_final s2 = false →
      pol k s2 ∈ board.get_legal_actions s2)
    (hnd : ∀ s2, (board.get_legal_actions s2).Nodup)
    (h : simulate ops board c pol fuelT fuelR st root = some st')
    (hInv : ∀ s2 ∈ st.tree, st.visit_counts_s s2 = sum_sa board st s2) :
    ∀ s2 ∈ st'.tree, st'.visit_counts_s s2 = sum_sa board st' s2 := by
  obtain ⟨P, v, st1, hB, -, hpairs, hdisj, -⟩ :=
    simulate_spec ops board c pol fuelT fuelR st root st' h
  have htree : st'.tree = st1.tree := by rw [hB, foldl_backup_tree]
  intro s hs
  rw [htree] at hs
  have hleg : ∀ p ∈ P, p.1 = s → p.2 ∈ board.get_legal_actions s := by
    intro p hp hps
    obtain ⟨-, hl⟩ := hpairs p hp
    rcases hl with hl | ⟨hnf, hpol0⟩
    · exact hps ▸ hl
    · rw [← hps]
      exact hpol0 ▸ hpol 0 p.1 hnf
  have hbase : st1.visit_counts_s s = sum_sa board st1 s := by
    rcases hdisj with hst1 | ⟨leaf, hnm, -, hst1, -⟩
    · subst hst1
      exact hInv s hs
    · subst hst1
      rw [new_node_tree] at hs
      rcases List.mem_cons.mp hs with hse | hse
      · subst hse
        rw [new_node_vc_s, Function.update_same, sum_sa]
        have hz : ∀ a ∈ board.get_legal_actions s,
            (new_node board st s).visit_counts_sa (s, a) = 0 := by
          intro a ha
          exact (new_node_sa_mem board st s a ha).1
        rw [List.map_congr_left hz]
        simp
      · have hne : s ≠ leaf := by
          intro he
          exact hnm (he ▸ hse)
        rw [new_node_vc_s, Function.update_noteq hne, sum_sa]
        have hsame : ∀ a ∈ board.get_legal_actions s,
            (new_node board st leaf).visit_counts_sa (s, a) =
              st.visit_counts_sa (s, a) := by
          intro a _
          exact (new_node_sa_ne board st leaf (s, a) hne).1
        rw [List.map_congr_left hsame]
        exact hInv s hse
  rw [hB, foldl_backup_vc_s,
    sum_sa_foldl_backup board v P st1 s (hnd s) hleg, hbase]

theorem simulate_heuristic_range (ops : NumOps R) (board : Board S A) (c : R)
    (pol : ℕ → S → A) (fuelT fuelR : ℕ) (st : MCState S A) (root : S)
    (st' : MCState S A)
    (h : simulate ops board c pol fuelT fuelR st root = some st')
    (hInv : ∀ q, 0 ≤ st.heuristic q ∧ st.heuristic q ≤ 1) :
    ∀ q, 0 ≤ st'.heuristic q ∧ st'.heuristic q ≤ 1 := by
  obtain ⟨P, v, st1, hB, hv, -, hdisj, -⟩ :=
    simulate_spec ops board c pol fuelT fuelR st root st' h
  have hv0 : 0 ≤ v := by rcases hv with h1 | h1 <;> rw [h1] <;> norm_num
  have hv1 : v ≤ 1 := by rcases hv with h1 | h1 <;> rw [h1] <;> norm_num
  have hst1 : ∀ q, 0 ≤ st1.heuristic q ∧ st1.heuristic q ≤ 1 := by
    rcases hdisj with he | ⟨leaf, -, -, he, -⟩
    · exact he ▸ hInv
    · exact he ▸ new_node_heuristic_range board st leaf hInv
  rw [hB]
  exact foldl_backup_heuristic_range v P hv0 hv1 st1 hst1

theorem run_steps_preserve (ops : NumOps R) (board : Board S A) (c : R)
    (Q : MCState S A → Prop) (Pc : SimStep S A → Prop)
    (hQ : ∀ step : SimStep S A, Pc step → ∀ st st',
      simulate ops board c step.pol step.fuelT step.fuelR st step.root =
        some st' → Q st → Q st') :
    ∀ steps : List (SimStep S A), (∀ step ∈ steps, Pc step) →
      ∀ st st', run_steps ops board c steps st = some st' → Q st → Q st' := by
  intro steps
  induction steps with
  | nil =>
    intro _ st st' h hQ0
    rw [run_steps] at h
    simp only [Option.some.injEq] at h
    exact h ▸ hQ0
  | cons step rest ih =>
    intro hPc st st' h hQ0
    rw [run_steps] at h
    cases hsim : simulate ops board c step.pol step.fuelT step.fuelR st
        step.root with
    | none =>
      rw [hsim] at h
      simp at h
    | some st1 =>
      rw [hsim] at h
      dsimp only at h
      exact ih (fun s2 hs2 => hPc s2 (List.mem_cons_of_mem step hs2)) st1 st' h
        (hQ step (hPc step (List.mem_cons_self step rest)) st st1 hsim hQ0)

theorem run_steps_tree_subset (ops : NumOps R) (board : Board S A) (c : R) :
    ∀ (steps : List (SimStep S A)) (st st' : MCState S A),
      run_steps ops board c steps st = some st' → st.tree ⊆ st'.tree := by
  intro steps
  induction steps with
  | nil =>
    intro st st' h
    rw [run_steps] at h
    simp only [Option.some.injEq] at h
    exact h ▸ fun x hx => hx
  | cons step rest ih =>
    intro st st' h
    rw [run_steps] at h
    cases hsim : simulate ops board c step.pol step.fuelT step.fuelR st
        step.root with
    | none =>
      rw [hsim] at h
      simp at h
    | some st1 =>
      rw [hsim] at h
      dsimp only at h
      exact fun x hx => ih st1 st' h
        ((simulate_tree_effect ops board c step.pol step.fuelT step.fuelR st
          step.root st1 hsim).1 hx)

theorem simulate_root_visited (ops : NumOps R) (board : Board S A) (c : R)
    (pol : ℕ → S → A) (fuelT fuelR : ℕ) (st : MCState S A) (root : S)
    (st' : MCState S A)
    (hroot : board.state_is_final root = false)
    (hpol : ∀ k s2, board.state_is_final s2 = false →
      pol k s2 ∈ board.get_legal_actions s2)
    (h : simulate ops board c pol fuelT fuelR st root = some st') :
    root ∈ st'.tree ∧ ∃ a, a ∈ board.get_legal_actions root ∧
      1 ≤ st'.visit_counts_sa (root, a) := by
  obtain ⟨P, v, st1, hB, -, hpairs, -, hhead⟩ :=
    simulate_spec ops board c pol fuelT fuelR st root st' h
  obtain ⟨a, P2, hP⟩ := hhead hroot
  have hmem : (root, a) ∈ P := hP ▸ List.mem_cons_self (root, a) P2
  obtain ⟨htree1, hlegd⟩ := hpairs (root, a) hmem
  have hleg : a ∈ board.get_legal_actions root := by
    rcases hlegd with hl | ⟨hnf, hl⟩
    · exact hl
    · have ha : a = pol 0 root := hl
      rw [ha]
      exact hpol 0 root hnf
  constructor
  · rw [hB, foldl_backup_tree]
    exact htree1
  · refine ⟨a, hleg, ?_⟩
    rw [hB, foldl_backup_vc_sa]
    have : 0 < P.count (root, a) := List.count_pos_iff.mpr hmem
    omega

theorem run_sims_root_visited (ops : NumOps R) (board : Board S A) (c : R)
    (pols : ℕ → ℕ → S → A) (fuelT fuelR : ℕ) (root : S)
    (hroot : board.state_is_final root = false)
    (hpol : ∀ m k s2, board.state_is_final s2 = false →
      pols m k s2 ∈ board.get_legal_actions s2) :
    ∀ (M : ℕ), 1 ≤ M → ∀ (st st' : MCState S A),
      run_sims ops board c pols fuelT fuelR root M st = some st' →
      root ∈ st'.tree ∧ ∃ a, a ∈ board.get_legal_actions root ∧
        1 ≤ st'.visit_counts_sa (root, a) := by
  intro M
  induction M with
  | zero => intro hM; omega
  | succ m ih =>
    intro _ st st' h
    rw [run_sims] at h
    cases hsim : simulate ops board c (pols m) fuelT fuelR st root with
    | none =>
      rw [hsim] at h
      simp at h
    | some st1 =>
      rw [hsim] at h
      dsimp only at h
      by_cases hm : 1 ≤ m
      · exact ih hm st1 st' h
      · have hm0 : m = 0 := by omega
        subst hm0
        rw [run_sims] at h
        simp only [Option.some.injEq] at h
        subst h
        exact simulate_root_visited ops board c (pols 0) fuelT fuelR st root
          _ hroot (hpol 0) hsim

theorem one_hot_vec_length (L k : ℕ) : (one_hot_vec L k).length = L := by
  simp [one_hot_vec]

theorem one_hot_vec_getD (L k j : ℕ) (hj : j < L) :
    (one_hot_vec L k).getD j 0 = if k = j then 1 else 0 := by
  have hlen : j < ((List.replicate L (0 : ℚ)).set k 1).length := by
    simpa using hj
  rw [one_hot_vec, List.getD_eq_getElem _ _ hlen, List.getElem_set]
  by_cases hkj : k = j
  · simp [hkj]
  · simp [hkj]

theorem one_hot_vec_sum (L k : ℕ) (hk : k < L) : (one_hot_vec L k).sum = 1 := by
  rw [one_hot_vec, List.sum_set]
  simp [List.take_replicate, List.drop_replicate, hk]

theorem one_hot_vec_inj (L k k' : ℕ) (hk : k < L) (_hk' : k' < L)
    (h : one_hot_vec L k = one_hot_vec L k') : k = k' := by
  by_contra hne
  have hgd := congrArg (fun v => v.getD k 0) h
  simp only at hgd
  rw [one_hot_vec_getD L k k hk, one_hot_vec_getD L k' k hk] at hgd
  simp [Ne.symm hne] at hgd

theorem vecAdd_length (u v : List ℚ) (h : u.length = v.length) :
    (vecAdd u v).length = u.length := by
  simp [vecAdd, h]

theorem vecSmul_length (c : ℚ) (v : List ℚ) :
    (vecSmul c v).length = v.length := by
  simp [vecSmul]

theorem vecAdd_sum : ∀ (u v : List ℚ), u.length = v.length →
    (vecAdd u v).sum = u.sum + v.sum
  | [], [], _ => by simp [vecAdd]
  | [], b :: v, h => by simp at h
  | a :: u, [], h => by simp at h
  | a :: u, b :: v, h => by
    have h' : u.length = v.length := by simpa using h
    simp only [vecAdd, List.zipWith_cons_cons, List.sum_cons]
    rw [show List.zipWith (· + ·) u v = vecAdd u v from rfl, vecAdd_sum u v h']
    ring

theorem vecSmul_sum (c : ℚ) (v : List ℚ) : (vecSmul c v).sum = c * v.sum := by
  rw [vecSmul, List.sum_map_mul_left]
  simp

theorem vecAdd_getD (u v : List ℚ) (j : ℕ) (hu : j < u.length)
    (hv : j < v.length) : (vecAdd u v).getD j 0 = u.getD j 0 + v.getD j 0 := by
  have hj : j < (vecAdd u v).length := by
    simp [vecAdd]
    omega
  rw [List.getD_eq_getElem _ _ hj, List.getD_eq_getElem _ _ hu,
    List.getD_eq_getElem _ _ hv]
  simp [vecAdd]

theorem vecSmul_getD (c : ℚ) (v : List ℚ) (j : ℕ) (hv : j < v.length) :
    (vecSmul c v).getD j 0 = c * v.getD j 0 := by
  have hj : j < (vecSmul c v).length := by simpa [vecSmul] using hv
  rw [List.getD_eq_getElem _ _ hj, List.getD_eq_getElem _ _ hv]
  simp [vecSmul]

theorem dist_fold_length (pairs : List (List ℚ × ℚ)) :
    ∀ base : List ℚ, (∀ p ∈ pairs, p.1.length = base.length) →
      (pairs.foldl (fun acc p => vecAdd acc (vecSmul p.2 p.1)) base).length =
        base.length := by
  induction pairs with
  | nil => intro base _; rfl
  | cons p pairs ih =>
    intro base hlen
    rw [List.foldl_cons]
    have hp : p.1.length = base.length := hlen p (List.mem_cons_self p pairs)
    have hb : (vecAdd base (vecSmul p.2 p.1)).length = base.length :=
      vecAdd_length base _ (by rw [vecSmul_length, hp])
    rw [ih _ (by intro q hq; rw [hb]; exact hlen q (List.mem_cons_of_mem p hq)),
      hb]

theorem dist_fold_sum (pairs : List (List ℚ × ℚ)) :
    ∀ base : List ℚ, (∀ p ∈ pairs, p.1.length = base.length) →
      (pairs.foldl (fun acc p => vecAdd acc (vecSmul p.2 p.1)) base).sum =
        base.sum + (pairs.map (fun p => p.2 * p.1.sum)).sum := by
  induction pairs with
  | nil => intro base _; simp
  | cons p pairs ih =>
    intro base hlen
    rw [List.foldl_cons]
    have hp : p.1.length = base.length := hlen p (List.mem_cons_self p pairs)
    have hb : (vecAdd base (vecSmul p.2 p.1)).length = base.length :=
      vecAdd_length base _ (by rw [vecSmul_length, hp])
    rw [ih _ (by intro q hq; rw [hb]; exact hlen q (List.mem_cons_of_mem p hq)),
      vecAdd_sum base _ (by rw [vecSmul_length, hp]), vecSmul_sum]
    simp only [List.map_cons, List.sum_cons]
    ring

theorem dist_fold_getD (pairs : List (List ℚ × ℚ)) :
    ∀ (base : List ℚ) (j : ℕ), j < base.length →
      (∀ p ∈ pairs, p.1.length = base.length) →
      (pairs.foldl (fun acc p => vecAdd acc (vecSmul p.2 p.1)) base).getD j 0 =
        base.getD j 0 + (pairs.map (fun p => p.2 * p.1.getD j 0)).sum := by
  induction pairs with
  | nil => intro base j _ _; simp
  | cons p pairs ih =>
    intro base j hj hlen
    rw [List.foldl_cons]
    have hp : p.1.length = base.length := hlen p (List.mem_cons_self p pairs)
    have hb : (vecAdd base (vecSmul p.2 p.1)).length = base.length :=
      vecAdd_length base _ (by rw [vecSmul_length, hp])
    rw [ih _ j (by rw [hb]; exact hj)
        (by intro q hq; rw [hb]; exact hlen q (List.mem_cons_of_mem p hq)),
      vecAdd_getD base _ j hj (by rw [vecSmul_length, hp]; exact hj),
      vecSmul_getD p.2 p.1 j (by rw [hp]; exact hj)]
    simp only [List.map_cons, List.sum_cons]
    ring

theorem zip_map_self {β γ : Type} (g : β → γ) :
    ∀ L' : List β, L'.zip (L'.map g) = L'.map (fun a => (a, g a))
  | [] => rfl
  | a :: L' => by
    rw [List.map_cons, List.zip_cons_cons, zip_map_self g L', List.map_cons]

theorem sum_map_ite_single {β : Type} [DecidableEq β] (h : β → ℚ) (b : β) :
    ∀ L' : List β, L'.Nodup → b ∈ L' →
      (L'.map (fun a => if a = b then h a else 0)).sum = h b := by
  intro L'
  induction L' with
  | nil => intro _ hb; cases hb
  | cons x L' ih =>
    intro hnd hb
    simp only [List.map_cons, List.sum_cons]
    by_cases hxb : x = b
    · subst hxb
      have hnb : x ∉ L' := (List.nodup_cons.mp hnd).1
      have hz : (L'.map (fun a => if a = x then h a else 0)).sum = 0 := by
        apply List.sum_eq_zero
        intro y hy
        obtain ⟨a, ha, hay⟩ := List.mem_map.mp hy
        have hax : a ≠ x := fun he => hnb (he ▸ ha)
        rw [← hay]
        simp [hax]
      rw [hz]
      simp
    · have hbL : b ∈ L' := by
        rcases List.mem_cons.mp hb with he | he
        · exact absurd he.symm hxb
        · exact he
      rw [ih (List.nodup_cons.mp hnd).2 hbL]
      simp [hxb]

theorem get_visited_distribution_spec (board : Board S (List ℚ))
    (st : MCState S (List ℚ)) (s : S) (L : ℕ)
    (hne : board.get_legal_actions s ≠ [])
    (hnd : (board.get_legal_actions s).Nodup)
    (hoh : ∀ a ∈ board.get_legal_actions s, ∃ k, k < L ∧ a = one_hot_vec L k) :
    ∃ d, get_visited_distribution board st s = Except.ok d ∧
      d.length = L ∧
      (totalOf board st s ≠ 0 → d.sum = 1) ∧
      (∀ a ∈ board.get_legal_actions s, ∀ k, k < L → a = one_hot_vec L k →
        d.getD k 0 = (st.visit_counts_sa (s, a) : ℚ) / totalOf board st s) ∧
      (∀ j, j < L → (∀ a ∈ board.get_legal_actions s, a ≠ one_hot_vec L j) →
        d.getD j 0 = 0) := by
  obtain ⟨a0, rest, hl⟩ := List.exists_cons_of_ne_nil hne
  have hfl : ∀ a ∈ board.get_legal_actions s, a.length = L := by
    intro a ha
    obtain ⟨k, hk, he⟩ := hoh a ha
    rw [he, one_hot_vec_length]
  have hbaseL : a0.length = L :=
    hfl a0 (by rw [hl]; exact List.mem_cons_self a0 rest)
  have htotsum : totalOf board st s =
      (((a0 :: rest)).map
        (fun a => (st.visit_counts_sa (s, a) : ℚ))).sum := by
    rw [totalOf, hl]
  have hD : get_visited_distribution board st s =
      Except.ok (((a0 :: rest).map
          (fun a => (a,
            (st.visit_counts_sa (s, a) : ℚ) / totalOf board st s))).foldl
        (fun acc p => vecAdd acc (vecSmul p.2 p.1))
        (List.replicate a0.length (0 : ℚ))) := by
    simp only [get_visited_distribution]
    rw [hl]
    dsimp only
    rw [List.map_map, zip_map_self, ← htotsum]
    rfl
  have hplen : ∀ p ∈ (a0 :: rest).map
      (fun a => (a, (st.visit_counts_sa (s, a) : ℚ) / totalOf board st s)),
      p.1.length = (List.replicate a0.length (0 : ℚ)).length := by
    intro p hp
    obtain ⟨a, ha, hap⟩ := List.mem_map.mp hp
    rw [← hap]
    rw [List.length_replicate, hbaseL]
    exact hfl a (by rw [hl]; exact ha)
  refine ⟨_, hD, ?_, ?_, ?_, ?_⟩
  · rw [dist_fold_length _ _ hplen, List.length_replicate, hbaseL]
  · intro htot0
    rw [dist_fold_sum _ _ hplen, List.map_map]
    have hsum1 : ∀ a ∈ a0 :: rest,
        ((fun p : List ℚ × ℚ => p.2 * p.1.sum) ∘
          (fun a => (a, (st.visit_counts_sa (s, a) : ℚ) / totalOf board st s)))
            a =
          (st.visit_counts_sa (s, a) : ℚ) / totalOf board st s := by
      intro a ha
      obtain ⟨k, hk, he⟩ := hoh a (by rw [hl]; exact ha)
      simp only [Function.comp_apply]
      rw [he, one_hot_vec_sum L k hk, mul_one]
    rw [List.map_congr_left hsum1]
    have hdiv : ∀ a ∈ a0 :: rest,
        (st.visit_counts_sa (s, a) : ℚ) / totalOf board st s =
          (st.visit_counts_sa (s, a) : ℚ) * (totalOf board st s)⁻¹ := by
      intro a _
      rw [div_eq_mul_inv]
    rw [List.map_congr_left hdiv, List.sum_map_mul_right, ← htotsum,
      ← div_eq_mul_inv, div_self htot0]
    simp
  · intro a ha k hk hak
    rw [dist_fold_getD _ _ k (by rw [List.length_replicate, hbaseL]; exact hk)
      hplen, List.map_map]
    have hbase0 : (List.replicate a0.length (0 : ℚ)).getD k 0 = 0 := by
      rw [List.getD_eq_getElem _ _ (by rw [List.length_replicate, hbaseL]; exact hk),
        List.getElem_replicate]
    rw [hbase0, zero_add]
    have hterm : ∀ b ∈ a0 :: rest,
        ((fun p : List ℚ × ℚ => p.2 * p.1.getD k 0) ∘
          (fun a => (a, (st.visit_counts_sa (s, a) : ℚ) / totalOf board st s)))
            b =
          (if b = a then (st.visit_counts_sa (s, b) : ℚ) / totalOf board st s
            else 0) := by
      intro b hb
      obtain ⟨kb, hkb, heb⟩ := hoh b (by rw [hl]; exact hb)
      have hgd : b.getD k 0 = if kb = k then 1 else 0 := by
        rw [heb]
        exact one_hot_vec_getD L kb k hk
      simp only [Function.comp_apply]
      rw [hgd]
      by_cases hba : b = a
      · have hkbk : kb = k := by
          apply one_hot_vec_inj L kb k hkb hk
          rw [← heb, hba, ← hak]
        rw [if_pos hkbk, mul_one, if_pos hba]
      · have hkbk : kb ≠ k := by
          intro he
          apply hba
          rw [heb, he, ← hak]
        rw [if_neg hkbk, mul_zero, if_neg hba]
    rw [List.map_congr_left hterm,
      sum_map_ite_single (fun b => (st.visit_counts_sa (s, b) : ℚ) /
        totalOf board st s) a (a0 :: rest) (by rw [← hl]; exact hnd)
        (by rw [← hl]; exact ha)]
  · intro j hj hnone
    rw [dist_fold_getD _ _ j (by rw [List.length_replicate, hbaseL]; exact hj)
      hplen, List.map_map]
    have hbase0 : (List.replicate a0.length (0 : ℚ)).getD j 0 = 0 := by
      rw [List.getD_eq_getElem _ _ (by rw [List.length_replicate, hbaseL]; exact hj),
        List.getElem_replicate]
    rw [hbase0, zero_add]
    have hterm : ∀ b ∈ a0 :: rest,
        ((fun p : List ℚ × ℚ => p.2 * p.1.getD j 0) ∘
          (fun a => (a, (st.visit_counts_sa (s, a) : ℚ) / totalOf board st s)))
            b = 0 := by
      intro b hb
      obtain ⟨kb, hkb, heb⟩ := hoh b (by rw [hl]; exact hb)
      have hkbj : kb ≠ j := by
        intro he
        exact hnone b (by rw [hl]; exact hb) (by rw [heb, he])
      have hgd : b.getD j 0 = if kb = j then 1 else 0 := by
        rw [heb]
        exact one_hot_vec_getD L kb j hj
      simp only [Function.comp_apply]
      rw [hgd, if_neg hkbj, mul_zero]
    rw [List.map_congr_left hterm]
    apply List.sum_eq_zero
    intro x hx
    obtain ⟨b, hb, hbx⟩ := List.mem_map.mp hx
    exact hbx ▸ rfl

theorem index_of_one_replicate_set :
    ∀ (L k : ℕ), k < L →
      index_of_one ((List.replicate L (0 : ℤ)).set k 1) = some k
  | 0, k, h => by omega
  | L + 1, 0, _ => by
    rw [List.replicate_succ, List.set_cons_zero, index_of_one]
    simp
  | L + 1, k + 1, h => by
    rw [List.replicate_succ, List.set_cons_succ, index_of_one]
    rw [if_neg (by norm_num),
      index_of_one_replicate_set L k (by omega)]
    rfl

theorem get_num_discs_one_hot (g : GameNim) (n : ℕ) (pid : ℤ)
    (hn : n ≤ g.num_pieces) :
    get_num_discs_from_one_hot (g.get_one_hot_from_state (n, pid)) =
      Except.ok n := by
  rw [GameNim.get_one_hot_from_state, get_num_discs_from_one_hot]
  dsimp only
  rw [List.dropLast_concat, index_of_one_replicate_set _ n (by omega)]

theorem get_legal_actions_one_hot (g : GameNim) (n : ℕ) (pid : ℤ)
    (hn : n ≤ g.num_pieces) :
    g.get_legal_actions (g.get_one_hot_from_state (n, pid)) =
      Except.ok ((List.range (min n g.max_take)).map
        (fun (i : ℕ) => (i : ℤ) + 1)) := by
  rw [GameNim.get_legal_actions, get_num_discs_one_hot g n pid hn]
  rfl

theorem mem_range_succ_map (m : ℕ) (a : ℤ) :
    a ∈ (List.range m).map (fun (i : ℕ) => (i : ℤ) + 1) ↔
      1 ≤ a ∧ a ≤ (m : ℤ) := by
  constructor
  · intro h
    obtain ⟨i, hi, he⟩ := List.mem_map.mp h
    rw [List.mem_range] at hi
    omega
  · rintro ⟨h1, h2⟩
    apply List.mem_map.mpr
    refine ⟨(a - 1).toNat, ?_, by omega⟩
    rw [List.mem_range]
    omega

theorem get_child_state_one_hot (g : GameNim) (n : ℕ) (pid a : ℤ)
    (hn : n ≤ g.num_pieces) (ha1 : 1 ≤ a) (haK : a ≤ (g.max_take : ℤ))
    (han : a ≤ (n : ℤ)) :
    g.get_child_state (g.get_one_hot_from_state (n, pid)) a =
      Except.ok [(n : ℤ) - a, 1 - pid] := by
  rw [GameNim.get_child_state, get_num_discs_one_hot g n pid hn]
  dsimp only
  rw [if_neg (by omega), if_neg (by omega)]
  rw [GameNim.get_one_hot_from_state]
  dsimp only
  rw [List.getLastD_concat]

theorem get_num_discs_pair (p q : ℤ) :
    get_num_discs_from_one_hot [p, q] =
      if p = 1 then Except.ok 0 else Except.error NimErr.valueErrorIndex := by
  rw [get_num_discs_from_one_hot]
  have hdl : ([p, q] : List ℤ).dropLast = [p] := rfl
  rw [hdl, index_of_one]
  by_cases hp : p = 1
  · rw [if_pos hp, if_pos hp]
  · rw [if_neg hp, if_neg hp]
    rfl

theorem backup_eq_foldl (st : MCState S A) (vs : List S) (pa : List A)
    (v : ℚ) : backup st vs pa v = (vs.zip pa).foldl (backup_step v) st := rfl

theorem backup_calls_stats (q : S × A) :
    ∀ (calls : List (List S × List A × ℚ)) (st : MCState S A),
      (backup_calls st calls).visit_counts_sa q =
        st.visit_counts_sa q + (outcomes_through q calls).length ∧
      (backup_calls st calls).heuristic q *
          ((backup_calls st calls).visit_counts_sa q : ℚ) =
        st.heuristic q * (st.visit_counts_sa q : ℚ) +
          (outcomes_through q calls).sum := by
  intro calls
  induction calls with
  | nil =>
    intro st
    rw [backup_calls, outcomes_through]
    simp
  | cons call rest ih =>
    intro st
    obtain ⟨vs, pa, v⟩ := call
    rw [backup_calls, outcomes_through]
    obtain ⟨ih1, ih2⟩ := ih (backup st vs pa v)
    have hb1 := foldl_backup_vc_sa v (vs.zip pa) st q
    have hb2 := foldl_backup_heuristic_mul v (vs.zip pa) st q
    rw [← backup_eq_foldl] at hb1 hb2
    constructor
    · rw [ih1, hb1, List.length_append, List.length_replicate]
      omega
    · rw [ih2, hb2, List.sum_append, List.sum_replicate, nsmul_eq_mul]
      ring

theorem cast_sum_map (l : List A) (f : A → ℕ) :
    (l.map (fun a => (f a : ℚ))).sum = ((l.map f).sum : ℚ) := by
  induction l with
  | nil => simp
  | cons a l ih =>
    simp only [List.map_cons, List.sum_cons, ih]
    push_cast
    ring

theorem totalOf_eq_cast (board : Board S (List ℚ)) (st : MCState S (List ℚ))
    (s : S) : totalOf board st s = ((sum_sa board st s : ℕ) : ℚ) := by
  rw [totalOf, sum_sa, cast_sum_map]

theorem nat_le_sum_of_mem : ∀ (l : List ℕ) (x : ℕ), x ∈ l → x ≤ l.sum := by
  intro l
  induction l with
  | nil => intro x hx; cases hx
  | cons y l ih =>
    intro x hx
    rw [List.sum_cons]
    rcases List.mem_cons.mp hx with he | he
    · omega
    · have := ih x he
      omega

/-- C1: the Backup Engine processes the zipped (state, action) pairs in path
order, incrementing `visitCount(state)` and `visitCount(state, action)` by
exactly 1 per occurrence and applying the incremental-mean update
`actionValue += (outcome - actionValue) / visitCount(state, action)`;
consequently a single simulation with path `[(s0, a0)]` and outcome `v`
leaves `visitCount(s0, a0) = 1` and `actionValue(s0, a0) = v` exactly, and
in general `actionValue(q)` equals the arithmetic mean of all outcomes ever
backed up through `q`. -/
theorem C1_backup_engine (st : MCState S A) (v : ℚ) (s0 : S) (a0 : A)
    (calls : List (List S × List A × ℚ)) (q : S × A)
    (hq0 : st.visit_counts_sa q = 0) (hh0 : st.heuristic q = 0)
    (hs0 : st.visit_counts_sa (s0, a0) = 0)
    (hh00 : st.heuristic (s0, a0) = 0) :
    (∀ (vs : List S) (pa : List A) (p : S × A),
        (backup st vs pa v).visit_counts_sa p =
          st.visit_counts_sa p + (vs.zip pa).count p) ∧
    (∀ (vs : List S) (pa : List A) (s : S),
        (backup st vs pa v).visit_counts_s s =
          st.visit_counts_s s + ((vs.zip pa).map Prod.fst).count s) ∧
    ((backup st [s0] [a0] v).visit_counts_sa (s0, a0) = 1 ∧
      (backup st [s0] [a0] v).heuristic (s0, a0) = v ∧
      (backup st [s0] [a0] v).visit_counts_s s0 =
        st.visit_counts_s s0 + 1) ∧
    ((backup_calls st calls).visit_counts_sa q =
        (outcomes_through q calls).length ∧
      ((outcomes_through q calls).length ≠ 0 →
        (backup_calls st calls).heuristic q =
          (outcomes_through q calls).sum /
            ((outcomes_through q calls).length : ℚ))) := by
  refine ⟨?_, ?_, ?_, ?_⟩
  · intro vs pa p
    rw [backup_eq_foldl, foldl_backup_vc_sa]
  · intro vs pa s
    rw [backup_eq_foldl, foldl_backup_vc_s]
  · have hvc : (backup st [s0] [a0] v).visit_counts_sa (s0, a0) = 1 := by
      rw [backup_eq_foldl, foldl_backup_vc_sa, hs0]
      simp
    refine ⟨hvc, ?_, ?_⟩
    · have hm := foldl_backup_heuristic_mul v ([s0].zip [a0]) st (s0, a0)
      rw [← backup_eq_foldl, hvc] at hm
      rw [hs0, hh00] at hm
      simpa using hm
    · rw [backup_eq_foldl, foldl_backup_vc_s]
      simp
  · obtain ⟨h1, h2⟩ := backup_calls_stats q calls st
    rw [hq0] at h1
    rw [hq0, hh0] at h2
    rw [zero_add] at h1
    refine ⟨h1, ?_⟩
    intro hlen
    rw [h1] at h2
    simp only [zero_mul, zero_add] at h2
    rw [eq_div_iff (by exact_mod_cast hlen)]
    exact h2

theorem C1_backup_engine_witness :
    ((initialize_variables : MCState ℕ ℕ).visit_counts_sa (2, 1) = 0 ∧
      (initialize_variables : MCState ℕ ℕ).heuristic (2, 1) = 0 ∧
      (initialize_variables : MCState ℕ ℕ).visit_counts_sa (3, 1) = 0 ∧
      (initialize_variables : MCState ℕ ℕ).heuristic (3, 1) = 0) ∧
    ((∀ (vs : List ℕ) (pa : List ℕ) (p : ℕ × ℕ),
        (backup (initialize_variables : MCState ℕ ℕ) vs pa 1).visit_counts_sa
            p =
          (initialize_variables : MCState ℕ ℕ).visit_counts_sa p +
            (vs.zip pa).count p) ∧
      (∀ (vs : List ℕ) (pa : List ℕ) (s : ℕ),
        (backup (initialize_variables : MCState ℕ ℕ) vs pa 1).visit_counts_s
            s =
          (initialize_variables : MCState ℕ ℕ).visit_counts_s s +
            ((vs.zip pa).map Prod.fst).count s) ∧
      ((backup (initialize_variables : MCState ℕ ℕ) [3] [1]
            1).visit_counts_sa (3, 1) = 1 ∧
        (backup (initialize_variables : MCState ℕ ℕ) [3] [1]
            1).heuristic (3, 1) = 1 ∧
        (backup (initialize_variables : MCState ℕ ℕ) [3] [1]
            1).visit_counts_s 3 =
          (initialize_variables : MCState ℕ ℕ).visit_counts_s 3 + 1) ∧
      ((backup_calls (initialize_variables : MCState ℕ ℕ)
            [([2], [1], 1)]).visit_counts_sa (2, 1) =
          (outcomes_through (2, 1) [([2], [1], 1)]).length ∧
        ((outcomes_through (2, 1) [([2], [1], 1)]).length ≠ 0 →
          (backup_calls (initialize_variables : MCState ℕ ℕ)
              [([2], [1], 1)]).heuristic (2, 1) =
            (outcomes_through (2, 1) [([2], [1], 1)]).sum /
              ((outcomes_through (2, 1) [([2], [1], 1)]).length : ℚ)))) :=
  ⟨⟨rfl, rfl, rfl, rfl⟩,
    C1_backup_engine initialize_variables 1 3 1 [([2], [1], 1)] (2, 1)
      rfl rfl rfl rfl⟩

/-- C2: at an expanded state with initialised statistics the Selector scores
every legal action with
`actionValue + sign * c * sqrt(ln(visitCount(s)) / (visitCount(s,a) + 1))`
(`sign = +1` for player 0, `-1` otherwise), returns the first legal action
attaining the maximum of the scores when player 0 is to move and the first
attaining the minimum otherwise (ties broken by enumeration order, earlier
actions strictly beat the chosen one is impossible), and with `c = 0` the
score degenerates to the action value alone. -/
theorem C2_selector (board : Board S A) (st : MCState S A) (s : S) (c : ℝ)
    (hne : board.get_legal_actions s ≠ []) :
    (∀ b : A, spec_score board st s b 0 = (st.heuristic (s, b) : ℝ)) ∧
    ∃ a, select_action realOps board st s c = some a ∧
      ∃ (i : ℕ) (hi : i < (board.get_legal_actions s).length),
        (board.get_legal_actions s).get ⟨i, hi⟩ = a ∧
        (board.p0_to_play s = true →
          (∀ j (hj : j < (board.get_legal_actions s).length),
            spec_score board st s ((board.get_legal_actions s).get ⟨j, hj⟩) c ≤
              spec_score board st s a c) ∧
          ∀ j (hj : j < (board.get_legal_actions s).length), j < i →
            spec_score board st s ((board.get_legal_actions s).get ⟨j, hj⟩) c <
              spec_score board st s a c) ∧
        (board.p0_to_play s = false →
          (∀ j (hj : j < (board.get_legal_actions s).length),
            spec_score board st s a c ≤
              spec_score board st s ((board.get_legal_actions s).get ⟨j, hj⟩) c) ∧
          ∀ j (hj : j < (board.get_legal_actions s).length), j < i →
            spec_score board st s a c <
              spec_score board st s ((board.get_legal_actions s).get ⟨j, hj⟩) c) := by
  constructor
  · intro b
    rw [spec_score, mul_zero, zero_mul, add_zero]
  obtain ⟨i, hi, hsel, hmax, hmin⟩ := select_action_eq_get realOps board st s c hne
  refine ⟨_, hsel, i, hi, rfl, ?_, ?_⟩
  · intro hp
    have hM := hmax hp
    obtain ⟨hL, hmx, hfst⟩ := hM
    have hfs : ∀ b : A,
        (st.heuristic (s, b) : ℝ) + c *
          realOps.sqrt (realOps.log (st.visit_counts_s s : ℝ) /
            ((st.visit_counts_sa (s, b) : ℝ) + 1)) =
        spec_score board st s b c := by
      intro b
      rw [spec_score, hp, if_pos rfl, one_mul, realOps]
    have hglen : ∀ j, j < (board.get_legal_actions s).length →
        j < ((board.get_legal_actions s).map (fun action =>
          (st.heuristic (s, action) : ℝ) + c *
            realOps.sqrt (realOps.log (st.visit_counts_s s : ℝ) /
              ((st.visit_counts_sa (s, action) : ℝ) + 1)))).length := by
      intro j hj
      rw [List.length_map]
      exact hj
    have hget : ∀ (j : ℕ) (hj : j < (board.get_legal_actions s).length),
        ((board.get_legal_actions s).map (fun action =>
          (st.heuristic (s, action) : ℝ) + c *
            realOps.sqrt (realOps.log (st.visit_counts_s s : ℝ) /
              ((st.visit_counts_sa (s, action) : ℝ) + 1)))).get
            ⟨j, hglen j hj⟩ =
          spec_score board st s ((board.get_legal_actions s).get ⟨j, hj⟩) c := by
      intro j hj
      rw [← hfs]
      simp [List.get_eq_getElem, List.getElem_map]
    constructor
    · intro j hj
      have h1 := hmx j (hglen j hj)
      rw [hget j hj] at h1
      rw [show (⟨i, hL⟩ : Fin _) = ⟨i, hglen i hi⟩ from rfl, hget i hi] at h1
      exact h1
    · intro j hj hji
      have h1 := hfst j (hglen j hj) hji
      rw [hget j hj] at h1
      rw [show (⟨i, hL⟩ : Fin _) = ⟨i, hglen i hi⟩ from rfl, hget i hi] at h1
      exact h1
  · intro hp
    have hpne : board.p0_to_play s = false := hp
    have hM := hmin hpne
    obtain ⟨hL, hmx, hfst⟩ := hM
    have hfs : ∀ b : A,
        (st.heuristic (s, b) : ℝ) - c *
          realOps.sqrt (realOps.log (st.visit_counts_s s : ℝ) /
            ((st.visit_counts_sa (s, b) : ℝ) + 1)) =
        spec_score board st s b c := by
      intro b
      rw [spec_score, hpne, if_neg (by simp), realOps]
      ring
    have hglen : ∀ j, j < (board.get_legal_actions s).length →
        j < ((board.get_legal_actions s).map (fun action =>
          (st.heuristic (s, action) : ℝ) - c *
            realOps.sqrt (realOps.log (st.visit_counts_s s : ℝ) /
              ((st.visit_counts_sa (s, action) : ℝ) + 1)))).length := by
      intro j hj
      rw [List.length_map]
      exact hj
    have hget : ∀ (j : ℕ) (hj : j < (board.get_legal_actions s).length),
        ((board.get_legal_actions s).map (fun action =>
          (st.heuristic (s, action) : ℝ) - c *
            realOps.sqrt (realOps.log (st.visit_counts_s s : ℝ) /
              ((st.visit_counts_sa (s, action) : ℝ) + 1)))).get
            ⟨j, hglen j hj⟩ =
          spec_score board st s ((board.get_legal_actions s).get ⟨j, hj⟩) c := by
      intro j hj
      rw [← hfs]
      simp [List.get_eq_getElem, List.getElem_map]
    constructor
    · intro j hj
      have h1 := hmx j (hglen j hj)
      rw [hget j hj] at h1
      rw [show (⟨i, hL⟩ : Fin _) = ⟨i, hglen i hi⟩ from rfl, hget i hi] at h1
      exact h1
    · intro j hj hji
      have h1 := hfst j (hglen j hj) hji
      rw [hget j hj] at h1
      rw [show (⟨i, hL⟩ : Fin _) = ⟨i, hglen i hi⟩ from rfl, hget i hi] at h1
      exact h1

theorem C2_selector_witness :
    (wBoardN.get_legal_actions 5 ≠ []) ∧
    ((∀ b : ℕ, spec_score wBoardN (initialize_variables : MCState ℕ ℕ) 5 b 0 =
        ((initialize_variables : MCState ℕ ℕ).heuristic (5, b) : ℝ)) ∧
      ∃ a, select_action realOps wBoardN
          (initialize_variables : MCState ℕ ℕ) 5 1 = some a ∧
        ∃ (i : ℕ) (hi : i < (wBoardN.get_legal_actions 5).length),
          (wBoardN.get_legal_actions 5).get ⟨i, hi⟩ = a ∧
          (wBoardN.p0_to_play 5 = true →
            (∀ j (hj : j < (wBoardN.get_legal_actions 5).length),
              spec_score wBoardN (initialize_variables : MCState ℕ ℕ) 5
                  ((wBoardN.get_legal_actions 5).get ⟨j, hj⟩) 1 ≤
                spec_score wBoardN (initialize_variables : MCState ℕ ℕ) 5 a 1) ∧
            ∀ j (hj : j < (wBoardN.get_legal_actions 5).length), j < i →
              spec_score wBoardN (initialize_variables : MCState ℕ ℕ) 5
                  ((wBoardN.get_legal_actions 5).get ⟨j, hj⟩) 1 <
                spec_score wBoardN (initialize_variables : MCState ℕ ℕ) 5 a 1) ∧
          (wBoardN.p0_to_play 5 = false →
            (∀ j (hj : j < (wBoardN.get_legal_actions 5).length),
              spec_score wBoardN (initialize_variables : MCState ℕ ℕ) 5 a 1 ≤
                spec_score wBoardN (initialize_variables : MCState ℕ ℕ) 5
                  ((wBoardN.get_legal_actions 5).get ⟨j, hj⟩) 1) ∧
            ∀ j (hj : j < (wBoardN.get_legal_actions 5).length), j < i →
              spec_score wBoardN (initialize_variables : MCState ℕ ℕ) 5 a 1 <
                spec_score wBoardN (initialize_variables : MCState ℕ ℕ) 5
                  ((wBoardN.get_legal_actions 5).get ⟨j, hj⟩) 1)) :=
  ⟨by decide, C2_selector wBoardN initialize_variables 5 1 (by decide)⟩

/-- C3: for every expanded state `s`, after any number of completed
simulations within an episode (across successive decision calls with
arbitrary roots and policy realisations), `visitCount(s)` equals the sum of
`visitCount(s, a)` over the legal actions of `s`. -/
theorem C3_visit_count_consistency (ops : NumOps R) (board : Board S A)
    (c : R) (steps : List (SimStep S A)) (st' : MCState S A)
    (hnd : ∀ s : S, (board.get_legal_actions s).Nodup)
    (hpol : ∀ step ∈ steps, ∀ (k : ℕ) (s : S),
      board.state_is_final s = false →
      step.pol k s ∈ board.get_legal_actions s)
    (hrun : run_steps ops board c steps initialize_variables = some st') :
    ∀ s ∈ st'.tree, st'.visit_counts_s s = sum_sa board st' s := by
  refine run_steps_preserve ops board c
    (fun st => ∀ s ∈ st.tree, st.visit_counts_s s = sum_sa board st s)
    (fun step => ∀ (k : ℕ) (s : S), board.state_is_final s = false →
      step.pol k s ∈ board.get_legal_actions s)
    ?_ steps hpol initialize_variables st' hrun ?_
  · intro step hstep st st1 hsim hQ
    exact simulate_inv3 ops board c step.pol step.fuelT step.fuelR st
      step.root st1 hstep hnd hsim hQ
  · intro s hs
    simp [initialize_variables] at hs

theorem C3_visit_count_consistency_witness :
    (∀ s : ℕ, (wBoardN.get_legal_actions s).Nodup) ∧
    (∀ step ∈ ([⟨fun _ _ => 1, 2, 3, 3⟩] : List (SimStep ℕ ℕ)),
      ∀ (k : ℕ) (s : ℕ), wBoardN.state_is_final s = false →
        step.pol k s ∈ wBoardN.get_legal_actions s) ∧
    ∃ st', run_steps qOps wBoardN 1
        ([⟨fun _ _ => 1, 2, 3, 3⟩] : List (SimStep ℕ ℕ))
        (initialize_variables : MCState ℕ ℕ) = some st' ∧
      ∀ s ∈ st'.tree, st'.visit_counts_s s = sum_sa wBoardN st' s := by
  have hnd : ∀ s : ℕ, (wBoardN.get_legal_actions s).Nodup := by
    intro s
    by_cases h : s = 0
    · simp [wBoardN, h]
    · simp [wBoardN, h]
  have hpol : ∀ step ∈ ([⟨fun _ _ => 1, 2, 3, 3⟩] : List (SimStep ℕ ℕ)),
      ∀ (k : ℕ) (s : ℕ), wBoardN.state_is_final s = false →
        step.pol k s ∈ wBoardN.get_legal_actions s := by
    intro step hstep k s hs
    have hse : step = (⟨fun _ _ => 1, 2, 3, 3⟩ : SimStep ℕ ℕ) := by
      simpa using hstep
    subst hse
    simp only [wBoardN] at hs ⊢
    simp only [beq_eq_false_iff_ne, ne_eq] at hs
    simp [hs]
  exact ⟨hnd, hpol, _, rfl,
    C3_visit_count_consistency qOps wBoardN 1 _ _ hnd hpol rfl⟩

/-- C8: within one episode the tree membership set is non-decreasing across
simulations and decision calls — each completed simulation adds at most one
state and removes none — and it becomes empty only through the explicit
reset `initialize_variables`, which also discards all visit counts and
action values. -/
theorem C8_tree_monotonicity (ops : NumOps R) (board : Board S A) (c : R) :
    (∀ (pol : ℕ → S → A) (fuelT fuelR : ℕ) (root : S)
        (st st' : MCState S A),
        simulate ops board c pol fuelT fuelR st root = some st' →
        st.tree ⊆ st'.tree ∧
          (st'.tree = st.tree ∨
            ∃ t, t ∉ st.tree ∧ st'.tree = t :: st.tree)) ∧
    (∀ (steps : List (SimStep S A)) (st st' : MCState S A),
        run_steps ops board c steps st = some st' → st.tree ⊆ st'.tree) ∧
    (initialize_variables : MCState S A).tree = [] ∧
    ∀ (s : S) (q : S × A),
      (initialize_variables : MCState S A).visit_counts_s s = 0 ∧
      (initialize_variables : MCState S A).visit_counts_sa q = 0 ∧
      (initialize_variables : MCState S A).heuristic q = 0 := by
  refine ⟨?_, run_steps_tree_subset ops board c, rfl,
    fun s q => ⟨rfl, rfl, rfl⟩⟩
  intro pol fuelT fuelR root st st' h
  exact simulate_tree_effect ops board c pol fuelT fuelR st root st' h

theorem C8_tree_monotonicity_witness :
    ∃ st', simulate qOps wBoardN 1 (fun _ _ => 1) 3 3
        (initialize_variables : MCState ℕ ℕ) 2 = some st' ∧
      ((initialize_variables : MCState ℕ ℕ).tree ⊆ st'.tree ∧
        (st'.tree = (initialize_variables : MCState ℕ ℕ).tree ∨
          ∃ t, t ∉ (initialize_variables : MCState ℕ ℕ).tree ∧
            st'.tree = t :: (initialize_variables : MCState ℕ ℕ).tree)) :=
  ⟨_, rfl,
    (C8_tree_monotonicity qOps wBoardN 1).1 (fun _ _ => 1) 3 3 2 _ _ rfl⟩

/-- C9: after any sequence of node expansions and completed backups,
every stored action value lies in the outcome domain: with the boolean
win-indicator outcome (`winner_is_p0`, backed up as 1 or 0) every
`actionValue(s, a)` lies in the closed interval [0, 1]. -/
theorem C9_action_value_range (ops : NumOps R) (board : Board S A) (c : R)
    (steps : List (SimStep S A)) (st' : MCState S A)
    (hrun : run_steps ops board c steps initialize_variables = some st') :
    ∀ q : S × A, 0 ≤ st'.heuristic q ∧ st'.heuristic q ≤ 1 := by
  refine run_steps_preserve ops board c
    (fun st => ∀ q : S × A, 0 ≤ st.heuristic q ∧ st.heuristic q ≤ 1)
    (fun _ => True) ?_ steps (fun _ _ => trivial) initialize_variables st'
    hrun ?_
  · intro step _ st st1 hsim hQ
    exact simulate_heuristic_range ops board c step.pol step.fuelT step.fuelR
      st step.root st1 hsim hQ
  · intro q
    constructor
    · simp [initialize_variables]
    · simp [initialize_variables]

theorem C9_action_value_range_witness :
    ∃ st', run_steps qOps wBoardN 1
        ([⟨fun _ _ => 1, 2, 3, 3⟩] : List (SimStep ℕ ℕ))
        (initialize_variables : MCState ℕ ℕ) = some st' ∧
      ∀ q : ℕ × ℕ, 0 ≤ st'.heuristic q ∧ st'.heuristic q ≤ 1 :=
  ⟨_, rfl, C9_action_value_range qOps wBoardN 1
    ([⟨fun _ _ => 1, 2, 3, 3⟩] : List (SimStep ℕ ℕ)) _ rfl⟩

/-- C10: after every completed simulation every tree state has
`visitCount(s) ≥ 1` (the expanding simulation always backs up a pair
crediting the new leaf, via a descent action or the bridging action), and
the `(state, action)` pairs recorded by the tree descent — exactly the
states at which `select_action` was called — all have `visitCount ≥ 1` in
the statistics the call read, so the unguarded `ln(visitCount(s))` in the
selection score is never evaluated at 0 under the reference control flow
(its argument is ≥ 1, so the logarithm is defined and non-negative). -/
theorem C10_log_guard (ops : NumOps R) (board : Board S A) (c : R) :
    (∀ (steps : List (SimStep S A)) (st' : MCState S A),
        run_steps ops board c steps initialize_variables = some st' →
        ∀ s ∈ st'.tree, 1 ≤ st'.visit_counts_s s) ∧
    (∀ (fuel : ℕ) (st : MCState S A) (s : S) (vs : List S) (pa : List A)
        (sf : S) (st2 : MCState S A),
        (∀ t ∈ st.tree, 1 ≤ st.visit_counts_s t) →
        simulate_tree ops board c fuel st s = some (vs, pa, sf, st2) →
        ∀ p ∈ vs.zip pa, p.1 ∈ st.tree ∧ 1 ≤ st.visit_counts_s p.1 ∧
          0 ≤ Real.log (st.visit_counts_s p.1 : ℝ)) := by
  constructor
  · intro steps st' hrun
    refine run_steps_preserve ops board c
      (fun st => ∀ s ∈ st.tree, 1 ≤ st.visit_counts_s s) (fun _ => True)
      ?_ steps (fun _ _ => trivial) initialize_variables st' hrun ?_
    · intro step _ st st1 hsim hQ
      exact simulate_vc_s_pos ops board c step.pol step.fuelT step.fuelR st
        step.root st1 hsim hQ
    · intro s hs
      simp [initialize_variables] at hs
  · intro fuel st s vs pa sf st2 hInv hrun p hp
    obtain ⟨hpairs, -, -⟩ :=
      simulate_tree_spec ops board c fuel st s vs pa sf st2 hrun
    obtain ⟨h1, -⟩ := hpairs p hp
    refine ⟨h1, hInv p.1 h1, ?_⟩
    apply Real.log_nonneg
    exact_mod_cast hInv p.1 h1

theorem C10_log_guard_witness :
    ∃ st', run_steps qOps wBoardN 1
        ([⟨fun _ _ => 1, 2, 3, 3⟩] : List (SimStep ℕ ℕ))
        (initialize_variables : MCState ℕ ℕ) = some st' ∧
      ∀ s ∈ st'.tree, 1 ≤ st'.visit_counts_s s :=
  ⟨_, rfl, (C10_log_guard qOps wBoardN 1).1
    ([⟨fun _ _ => 1, 2, 3, 3⟩] : List (SimStep ℕ ℕ)) _ rfl⟩

/-- C4: for a non-terminal root and simulation budget `M ≥ 1`, the Search
Driver (`mc_tree_search`) returns a visit-count distribution over the
canonical action space summing exactly to 1, placing
`visitCount(root, a) / Σ visitCount(root, ·)` in the canonical slot of each
legal one-hot action `a`, and weight 0 in every slot that belongs to no
legal action. -/
theorem C4_search_driver_distribution (board : Board S (List ℚ))
    (ops : NumOps R) (c : R) (pols : ℕ → ℕ → S → List ℚ)
    (fuelT fuelR M : ℕ) (st st' : MCState S (List ℚ)) (root : S)
    (act : Option (List ℚ)) (dist : Except DistErr (List ℚ)) (L : ℕ)
    (hM : 1 ≤ M)
    (hroot : board.state_is_final root = false)
    (hpol : ∀ m k s, board.state_is_final s = false →
      pols m k s ∈ board.get_legal_actions s)
    (hnd : (board.get_legal_actions root).Nodup)
    (hoh : ∀ a ∈ board.get_legal_actions root,
      ∃ k, k < L ∧ a = one_hot_vec L k)
    (hrun : mc_tree_search ops board c pols fuelT fuelR M st root =
      some (act, dist, st')) :
    0 < totalOf board st' root ∧
    ∃ d, dist = Except.ok d ∧ d.length = L ∧ d.sum = 1 ∧
      (∀ a ∈ board.get_legal_actions root, ∀ k, k < L →
        a = one_hot_vec L k →
        d.getD k 0 =
          (st'.visit_counts_sa (root, a) : ℚ) / totalOf board st' root) ∧
      (∀ j, j < L → (∀ a ∈ board.get_legal_actions root,
        a ≠ one_hot_vec L j) → d.getD j 0 = 0) := by
  rw [mc_tree_search] at hrun
  cases hR : run_sims ops board c pols fuelT fuelR root M st with
  | none =>
    rw [hR] at hrun
    simp at hrun
  | some st1 =>
    rw [hR] at hrun
    dsimp only at hrun
    simp only [Option.some.injEq, Prod.mk.injEq] at hrun
    obtain ⟨hact, hdist, hst⟩ := hrun
    obtain ⟨hintree, a1, ha1leg, ha1vc⟩ :=
      run_sims_root_visited ops board c pols fuelT fuelR root hroot hpol M
        hM st st1 hR
    have hne : board.get_legal_actions root ≠ [] :=
      List.ne_nil_of_mem ha1leg
    have htpos : 0 < totalOf board st1 root := by
      rw [totalOf_eq_cast]
      have hmem : st1.visit_counts_sa (root, a1) ∈
          (board.get_legal_actions root).map
            (fun a => st1.visit_counts_sa (root, a)) :=
        List.mem_map_of_mem _ ha1leg
      have hle := nat_le_sum_of_mem _ _ hmem
      rw [show ((board.get_legal_actions root).map
          (fun a => st1.visit_counts_sa (root, a))).sum =
          sum_sa board st1 root from rfl] at hle
      exact_mod_cast show 0 < sum_sa board st1 root by omega
    obtain ⟨d, hd, hlen, hsum, hslot, hzero⟩ :=
      get_visited_distribution_spec board st1 root L hne hnd hoh
    subst hst
    refine ⟨htpos, d, ?_, hlen, hsum (ne_of_gt htpos), hslot, hzero⟩
    rw [← hdist, hd]

theorem C4_search_driver_distribution_witness :
    ∃ act dist st',
      mc_tree_search qOps wBoardD 1 wPolD 2 2 1
        (initialize_variables : MCState ℕ (List ℚ)) 1 =
          some (act, dist, st') ∧
      (0 < totalOf wBoardD st' 1 ∧
        ∃ d, dist = Except.ok d ∧ d.length = 1 ∧ d.sum = 1 ∧
          (∀ a ∈ wBoardD.get_legal_actions 1, ∀ k, k < 1 →
            a = one_hot_vec 1 k →
            d.getD k 0 =
              (st'.visit_counts_sa (1, a) : ℚ) / totalOf wBoardD st' 1) ∧
          (∀ j, j < 1 → (∀ a ∈ wBoardD.get_legal_actions 1,
            a ≠ one_hot_vec 1 j) → d.getD j 0 = 0)) := by
  have hpol : ∀ m k s, wBoardD.state_is_final s = false →
      wPolD m k s ∈ wBoardD.get_legal_actions s := by
    intro m k s hs
    simp only [wBoardD] at hs ⊢
    simp only [beq_eq_false_iff_ne, ne_eq] at hs
    simp [wPolD, hs]
  have hoh : ∀ a ∈ wBoardD.get_legal_actions 1,
      ∃ k, k < 1 ∧ a = one_hot_vec 1 k := by
    intro a ha
    refine ⟨0, by omega, ?_⟩
    simpa [wBoardD] using ha
  refine ⟨_, _, _, rfl, ?_⟩
  exact C4_search_driver_distribution wBoardD qOps 1 wPolD 2 2 1
    initialize_variables _ 1 _ _ 1 (by omega) rfl hpol
    (by simp [wBoardD]) hoh rfl

/-- C5: counter to the specified behaviour, the code does not fail
explicitly on a zero-sum root visit vector.  With the root expanded but
zero simulations backed up (`c5_state`), the visit-count vector sums to 0,
yet `get_visited_distribution` silently returns a value (`Except.ok`)
instead of surfacing a `DegenerateDistribution` error: the Python source
divides by the zero sum unguarded, propagating a NaN vector (the ℚ model
evaluates the division-by-zero junk value to 0). -/
theorem C5_zero_sum_is_silent :
    totalOf wBoardD c5_state 1 = 0 ∧
    get_visited_distribution wBoardD c5_state 1 = Except.ok [0] := by
  have hleg : wBoardD.get_legal_actions 1 = [one_hot_vec 1 0] := rfl
  have hvc : c5_state.visit_counts_sa (1, one_hot_vec 1 0) = 0 :=
    (new_node_sa_mem wBoardD initialize_variables 1 (one_hot_vec 1 0)
      (by rw [hleg]; exact List.mem_cons_self _ _)).1
  have htot : totalOf wBoardD c5_state 1 = 0 := by
    rw [totalOf, hleg]
    simp [hvc]
  refine ⟨htot, ?_⟩
  simp only [get_visited_distribution, hleg]
  have hohv : one_hot_vec 1 0 = [1] := by simp [one_hot_vec]
  simp [hvc, one_hot_vec, vecAdd, vecSmul]
  rw [← hohv]
  exact hvc

/-- C6: calling the oracle's `get_child_state` with an action that is
non-positive, that exceeds the maximum take `K`, or that exceeds the
number of pieces remaining, fails with one of the two invalid-action
`ValueError`s, and the failed call passes the search statistics through
unchanged (the method reads only the state and the action). -/
theorem C6_invalid_action_error (g : GameNim) (state : List ℤ) (action : ℤ)
    (d : ℕ)
    (hd : get_num_discs_from_one_hot state = Except.ok d)
    (ha : action < 1 ∨ (g.max_take : ℤ) < action ∨ (d : ℤ) < action) :
    ∃ e, (e = NimErr.invalidActionRange ∨ e = NimErr.invalidActionTooMany) ∧
      g.get_child_state state action = Except.error e ∧
      ∀ st : MCState (List ℤ) ℤ,
        get_child_state_call g state action st = (Except.error e, st) := by
  have hcall : ∀ e : NimErr,
      g.get_child_state state action = Except.error e →
      ∀ st : MCState (List ℤ) ℤ,
        get_child_state_call g state action st = (Except.error e, st) := by
    intro e he st
    simp only [get_child_state_call, he]
  by_cases hr : action < 1 ∨ (g.max_take : ℤ) < action
  · have herr : g.get_child_state state action =
        Except.error NimErr.invalidActionRange := by
      simp only [GameNim.get_child_state]
      rw [hd]
      dsimp only
      rw [if_pos hr]
    exact ⟨NimErr.invalidActionRange, Or.inl rfl, herr, hcall _ herr⟩
  · have hdn : (d : ℤ) < action := by
      rcases ha with h | h | h
      · exact absurd (Or.inl h) hr
      · exact absurd (Or.inr h) hr
      · exact h
    have herr : g.get_child_state state action =
        Except.error NimErr.invalidActionTooMany := by
      simp only [GameNim.get_child_state]
      rw [hd]
      dsimp only
      rw [if_neg hr, if_pos hdn]
    exact ⟨NimErr.invalidActionTooMany, Or.inr rfl, herr, hcall _ herr⟩

theorem C6_invalid_action_error_witness :
    (get_num_discs_from_one_hot
        (GameNim.get_initial_state ⟨10, 2⟩) = Except.ok 10) ∧
    ((0 : ℤ) < 1 ∨ (((⟨10, 2⟩ : GameNim).max_take : ℤ) < 0 ∨
      ((10 : ℕ) : ℤ) < 0)) ∧
    ∃ e, (e = NimErr.invalidActionRange ∨
        e = NimErr.invalidActionTooMany) ∧
      (⟨10, 2⟩ : GameNim).get_child_state
        (GameNim.get_initial_state ⟨10, 2⟩) 0 = Except.error e ∧
      ∀ st : MCState (List ℤ) ℤ,
        get_child_state_call ⟨10, 2⟩ (GameNim.get_initial_state ⟨10, 2⟩) 0
          st = (Except.error e, st) :=
  ⟨rfl, Or.inl (by norm_num),
    C6_invalid_action_error ⟨10, 2⟩ (GameNim.get_initial_state ⟨10, 2⟩) 0 10
      rfl (Or.inl (by norm_num))⟩

/-- C7: `get_child_state` consumes a one-hot state (length `N + 2`, pid
appended) but returns the plain numeric pair `(remaining, pid)`; on that
pair the oracle's own `state_is_final` — which tests element 0 against 1 —
holds iff exactly one piece remains after the move (not zero pieces as on
the one-hot encoding), and `get_num_discs_from_one_hot` applied to the
pair yields 0 when the piece count is 1 and raises otherwise: the oracle's
operations are not closed over the states `get_child_state` produces. -/
theorem C7_representation_mismatch (g : GameNim) (n : ℕ) (pid a : ℤ)
    (la : List ℤ) (hn : n ≤ g.num_pieces)
    (hla : g.get_legal_actions (g.get_one_hot_from_state (n, pid)) =
      Except.ok la)
    (ha : a ∈ la) :
    (g.get_one_hot_from_state (n, pid)).length = g.num_pieces + 2 ∧
    g.get_child_state (g.get_one_hot_from_state (n, pid)) a =
      Except.ok [(n : ℤ) - a, 1 - pid] ∧
    ([(n : ℤ) - a, 1 - pid] : List ℤ).length = 2 ∧
    (GameNim.state_is_final [(n : ℤ) - a, 1 - pid] = true ↔
      (n : ℤ) - a = 1) ∧
    ((n : ℤ) - a = 1 →
      get_num_discs_from_one_hot [(n : ℤ) - a, 1 - pid] = Except.ok 0) ∧
    ((n : ℤ) - a ≠ 1 →
      get_num_discs_from_one_hot [(n : ℤ) - a, 1 - pid] =
        Except.error NimErr.valueErrorIndex) := by
  rw [get_legal_actions_one_hot g n pid hn] at hla
  simp only [Except.ok.injEq] at hla
  subst hla
  have hb := (mem_range_succ_map (min n g.max_take) a).mp ha
  have ha1 : 1 ≤ a := hb.1
  have hbound : a ≤ ((min n g.max_take : ℕ) : ℤ) := hb.2
  have han : a ≤ (n : ℤ) := by
    have : ((min n g.max_take : ℕ) : ℤ) ≤ (n : ℤ) := by
      have := Nat.min_le_left n g.max_take
      exact_mod_cast this
    omega
  have haK : a ≤ (g.max_take : ℤ) := by
    have : ((min n g.max_take : ℕ) : ℤ) ≤ (g.max_take : ℤ) := by
      have := Nat.min_le_right n g.max_take
      exact_mod_cast this
    omega
  refine ⟨?_, get_child_state_one_hot g n pid a hn ha1 haK han, rfl, ?_, ?_, ?_⟩
  · rw [GameNim.get_one_hot_from_state]
    simp
  · rw [GameNim.state_is_final]
    simp only [List.getD]
    constructor
    · intro h
      simpa using h
    · intro h
      simp [h]
  · intro h
    rw [get_num_discs_pair, if_pos h]
  · intro h
    rw [get_num_discs_pair, if_neg h]

theorem C7_representation_mismatch_witness :
    ((5 : ℕ) ≤ (⟨10, 2⟩ : GameNim).num_pieces) ∧
    ((⟨10, 2⟩ : GameNim).get_legal_actions
        ((⟨10, 2⟩ : GameNim).get_one_hot_from_state (5, 0)) =
      Except.ok [1, 2]) ∧
    ((1 : ℤ) ∈ ([1, 2] : List ℤ)) ∧
    (((⟨10, 2⟩ : GameNim).get_one_hot_from_state (5, 0)).length =
      (⟨10, 2⟩ : GameNim).num_pieces + 2 ∧
    (⟨10, 2⟩ : GameNim).get_child_state
        ((⟨10, 2⟩ : GameNim).get_one_hot_from_state (5, 0)) 1 =
      Except.ok [(5 : ℤ) - 1, 1 - 0] ∧
    ([(5 : ℤ) - 1, 1 - 0] : List ℤ).length = 2 ∧
    (GameNim.state_is_final [(5 : ℤ) - 1, 1 - 0] = true ↔
      (5 : ℤ) - 1 = 1) ∧
    ((5 : ℤ) - 1 = 1 →
      get_num_discs_from_one_hot [(5 : ℤ) - 1, 1 - 0] = Except.ok 0) ∧
    ((5 : ℤ) - 1 ≠ 1 →
      get_num_discs_from_one_hot [(5 : ℤ) - 1, 1 - 0] =
        Except.error NimErr.valueErrorIndex)) :=
  ⟨by norm_num, rfl, by norm_num,
    C7_representation_mismatch ⟨10, 2⟩ 5 0 1 [1, 2] (by norm_num) rfl
      (by norm_num)⟩
